import Mathlib

/-! ARPA language-model filter: header codec, section framing and the output writer.

A shallow embedding of `src/lm/filter.cc` (namespace `lm`).

Conventions of the embedding

* A byte string (`std::string`, the unread part of a `std::istream`, the
  content of a file) is a `List Char`.
* `unsigned int` is a natural number below `4294967296`; arithmetic on it is
  written with an explicit `% 4294967296`.  `size_t` is 64 bits wide and no
  `size_t` computation of the file can wrap, so it is a plain `Nat`.
* A `std::vector<size_t>` is a `List Nat`.
* An input stream that is in the good state is the list of bytes not yet read.
* `err`, `errx` end the process with an exit status; an exception thrown by
  `boost::lexical_cast`, or by a file stream whose exceptions are enabled, leaves
  the function without one.  All are values of `Failure`.  The text of the
  diagnostics is not modelled.
* A loop whose exit the source does not make structurally evident takes a fuel
  argument and answers `none` when the fuel is used up.
-/

namespace lm

/-! ## Failures -/

/-- Ways in which a function of the file ends without returning. -/
inductive Failure where
  /-- `err(status, ...)`: message and errno text on stderr, then `exit(status)`. -/
  | err (status : Nat)
  /-- `errx(status, ...)`: message on stderr, then `exit(status)`. -/
  | errx (status : Nat)
  /-- `boost::bad_lexical_cast` thrown by a conversion and not caught in this file. -/
  | bad_lexical_cast
  /-- `std::ios_base::failure` thrown by a file stream with exceptions enabled, here
  by an `open` that fails, and not caught in this file. -/
  | ios_failure
  deriving DecidableEq, Repr

deriving instance DecidableEq for Except

/-- Exit status of the process, when the failure is an exit. -/
def Failure.exitStatus : Failure → Option Nat
  | .err s => some s
  | .errx s => some s
  | .bad_lexical_cast => none
  | .ios_failure => none

/-! ## Library primitives used by the file -/

/-- Character of a decimal digit. -/
def digitChar (d : Nat) : Char := Char.ofNat (48 + d)

/-- Decimal printing with an accumulator; `fuel` bounds the number of digits. -/
def decimalCore : Nat → Nat → List Char → List Char
  | 0, _, acc => acc
  | fuel + 1, n, acc =>
    if n < 10 then digitChar n :: acc
    else decimalCore fuel (n / 10) (digitChar (n % 10) :: acc)

/-- Decimal text of an unsigned integer, as printed by `operator<<` and by
`boost::lexical_cast<std::string>`: no sign, no padding, `0` for zero. -/
def decimal (n : Nat) : List Char := decimalCore (n + 1) n []

/-- Value of a run of decimal digits, most significant first. -/
def digitsValue (s : List Char) : Nat :=
  s.foldl (fun acc c => acc * 10 + (c.toNat - 48)) 0

/-- Conversion `boost::lexical_cast<unsigned int>(std::string)`: an optional
sign, then at least one decimal digit and nothing else; a value above
`4294967295` is refused; a leading minus negates modulo `2^32`. -/
def lexical_cast_unsigned_int (s : List Char) : Except Failure Nat :=
  let body := if s.head? = some '-' ∨ s.head? = some '+' then s.tail else s
  if body = [] ∨ body.all Char.isDigit = false then .error .bad_lexical_cast
  else if 4294967295 < digitsValue body then .error .bad_lexical_cast
  else if s.head? = some '-' then .ok ((4294967296 - digitsValue body) % 4294967296)
  else .ok (digitsValue body)

/-- Call `std::getline(in, line)` on a good stream: `none` when no byte could be
extracted (the stream is at its end); otherwise the line without its newline
and the rest of the input.  A last line without a newline is still a line. -/
def getline (inp : List Char) : Option (List Char × List Char) :=
  match inp with
  | [] => none
  | _ :: _ =>
    some (inp.takeWhile (fun c => c != '\n'), (inp.dropWhile (fun c => c != '\n')).tail)

/-- Output stream with a put position: a byte written at the position
replaces the byte there, or extends the content when the position is its end. -/
structure OStream where
  content : List Char
  pos : Nat
  deriving DecidableEq, Repr

/-- Stream insertion `out << bytes` at the put position. -/
def OStream.write (s : OStream) (bytes : List Char) : OStream :=
  ⟨s.content.take s.pos ++ bytes ++ s.content.drop (s.pos + bytes.length),
    s.pos + bytes.length⟩

/-- Member `seekp(p)`. -/
def OStream.seekp (s : OStream) (p : Nat) : OStream := ⟨s.content, p⟩

/-- Member `tellp()`. -/
def OStream.tellp (s : OStream) : Nat := s.pos

/-- A freshly created, empty stream (`std::ostringstream buf;`, or a file just
opened with `std::ios::out`). -/
def OStream.empty : OStream := ⟨[], 0⟩

/-! ## The count ledger codec -/

/-- The `for` loop of `WriteCounts`.  The counter `i` is an `unsigned int`
compared with the `size_t` size of the vector. -/
def WriteCountsLoop (number : List Nat) : Nat → Nat → OStream → Option OStream
  | 0, _, _ => none
  | fuel + 1, i, out =>
    if h : i < number.length then
      WriteCountsLoop number fuel ((i + 1) % 4294967296)
        (((((out.write "ngram ".toList).write (decimal ((i + 1) % 4294967296))).write
          "=".toList).write (decimal number[i])).write ['\n'])
    else some out

/-- Function `WriteCounts(out, number)`.  The loop is given `number.size() + 1`
rounds, which is enough whenever it exits at all (`WriteCountsLoop_none_of_large`,
`WriteCountsLoop_fuel_irrelevant`); `none` is a loop that never exits. -/
def WriteCounts (out : OStream) (number : List Nat) : Option OStream :=
  (WriteCountsLoop number (number.length + 1) 0 (out.write "\n\\data\\\n".toList)).map
    (fun o => o.write ['\n'])

/-- Function `SizeNeededForCounts(number)`. -/
def SizeNeededForCounts (number : List Nat) : Option Nat :=
  (WriteCounts OStream.empty number).map OStream.tellp

/-- The `while (getline(in, line))` loop of `ReadCounts`, from the state
`(in, number)`.  On success: the ledger and the unread input. -/
def ReadCountsLoop : Nat → List Char → List Nat →
    Option (Except Failure (List Nat × List Char))
  | 0, _, _ => none
  | fuel + 1, inp, number =>
    match getline inp with
    | none => some (.error (.err 2))
    | some (line, rest) =>
      if line = [] then some (.ok (number, rest))
      else if line.take 6 ≠ "ngram ".toList then some (.error (.errx 3))
      else
        let equals := line.indexOf '='
        if equals = line.length then some (.error (.errx 3))
        else
          match lexical_cast_unsigned_int ((line.drop 6).take (equals - 6)) with
          | .error e => some (.error e)
          | .ok length =>
            if (length + 4294967295) % 4294967296 ≠ number.length then some (.error (.errx 3))
            else
              match lexical_cast_unsigned_int (line.drop (equals + 1)) with
              | .error e => some (.error e)
              | .ok count => ReadCountsLoop fuel rest (number ++ [count])

/-- Function `ReadCounts(in, number)`: the vector is cleared first, so the
result does not depend on what it held.  The loop is given one round per input
byte plus one, which always suffices (`ReadCounts_terminates`). -/
def ReadCounts (inp : List Char) : Option (Except Failure (List Nat × List Char)) :=
  match getline inp with
  | none => some (.error (.err 2))
  | some (line, rest) =>
    if line ≠ [] then some (.error (.errx 3))
    else
      match getline rest with
      | none => some (.error (.err 2))
      | some (line2, rest2) =>
        if line2 ≠ "\\data\\".toList then some (.error (.err 3))
        else ReadCountsLoop (rest2.length + 1) rest2 []

/-! ## Section framing -/

/-- The `do ... while (line.empty())` loop of `ReadNGramHeader`: the first
non-empty line and the unread input after it. -/
def ReadNGramHeaderLoop : Nat → List Char → Option (Except Failure (List Char × List Char))
  | 0, _ => none
  | fuel + 1, inp =>
    match getline inp with
    | none => some (.error (.err 2))
    | some (line, rest) =>
      if line = [] then ReadNGramHeaderLoop fuel rest else some (.ok (line, rest))

/-- Function `ReadNGramHeader(in, length)`; on success the unread input. -/
def ReadNGramHeader (inp : List Char) (length : Nat) : Option (Except Failure (List Char)) :=
  match ReadNGramHeaderLoop (inp.length + 1) inp with
  | none => none
  | some (.error e) => some (.error e)
  | some (.ok (line, rest)) =>
    if line ≠ '\\' :: (decimal length ++ "-grams:".toList) then some (.error (.errx 3))
    else some (.ok rest)

/-- Function `ReadEnd(in_lm)`; on success the unread input. -/
def ReadEnd (in_lm : List Char) : Except Failure (List Char) :=
  match getline in_lm with
  | none => .error (.err 2)
  | some (line, rest) =>
    if line ≠ "\\end\\".toList then .error (.errx 3) else .ok rest

/-! ## The output writer -/

/-- Modelled from the spec: the class declaration of `OutputLM` is in
`lm/filter.hh`, which is not among the sources.  The data members are the ones
the methods below use: the backing sink `file_`, the running record counter
`fast_counter_` for the length being written, and the ledger `counts_`, which
`Finish` hands to `WriteCounts` as a `std::vector<size_t>`. -/
structure OutputLM where
  file_ : OStream
  fast_counter_ : Nat
  counts_ : List Nat
  deriving DecidableEq, Repr

/-- The writer that the constructor `OutputLM(name)` leaves when its `open` has
succeeded: the file is opened empty, the ledger is empty; the constructor does
not initialise `fast_counter_`, whose value is the argument here. -/
def OutputLM.create (uninitialised : Nat) : OutputLM := ⟨OStream.empty, uninitialised, []⟩

/-- Constructor `OutputLM::OutputLM(name)`.  It enables the exceptions of `file_` for
`eofbit`, `failbit` and `badbit` and then opens `name` for output, so an `open`
that fails throws `std::ios_base::failure` and no writer exists.  Whether a name
can be opened is decided by the file system, the argument `canOpen`. -/
def OutputLM.construct (canOpen : List Char → Bool) (name : List Char) (uninitialised : Nat) :
    Except Failure OutputLM :=
  if canOpen name then .ok (OutputLM.create uninitialised) else .error .ios_failure

/-- The `for` loop of `ReserveForCounts`, by the number of rounds left. -/
def ReserveForCountsLoop : Nat → OStream → OStream
  | 0, f => f
  | n + 1, f => ReserveForCountsLoop n (f.write ['\n'])

/-- Method `OutputLM::ReserveForCounts(reserve)`; a `std::streampos` is signed. -/
def OutputLM.ReserveForCounts (w : OutputLM) (reserve : Int) : OutputLM :=
  ⟨ReserveForCountsLoop reserve.toNat w.file_, w.fast_counter_, w.counts_⟩

/-- Method `OutputLM::BeginLength(length)`. -/
def OutputLM.BeginLength (w : OutputLM) (length : Nat) : OutputLM :=
  ⟨(((w.file_.write ['\\']).write (decimal length)).write "-grams:".toList).write ['\n'],
    0, w.counts_⟩

/-- Method `OutputLM::EndLength(length)`.  The index `length - 1` is computed in
`unsigned int`; `none` is a store outside the vector (undefined behaviour). -/
def OutputLM.EndLength (w : OutputLM) (length : Nat) : Option OutputLM :=
  let counts :=
    if length > w.counts_.length then
      w.counts_ ++ List.replicate (length - w.counts_.length) 0
    else w.counts_
  let idx := (length + 4294967295) % 4294967296
  if idx < counts.length then
    some ⟨w.file_.write ['\n'], w.fast_counter_, counts.set idx w.fast_counter_⟩
  else none

/-- Method `OutputLM::Finish()`; `none` when `WriteCounts` never returns. -/
def OutputLM.Finish (w : OutputLM) : Option OutputLM :=
  (WriteCounts ((w.file_.write "\\end\\\n".toList).seekp 0) w.counts_).map
    (fun f => ⟨f, w.fast_counter_, w.counts_⟩)


/-- Modelled from the spec: the inline method `OutputLM::AddNGram` (the spec's
`write_record`) is defined in `lm/filter.hh`, which is not among the sources.
It appends the record verbatim followed by a line terminator and increments the
per-length counter. -/
def OutputLM.AddNGram (w : OutputLM) (line : List Char) : OutputLM :=
  ⟨(w.file_.write line).write ['\n'], w.fast_counter_ + 1, w.counts_⟩

/-! ## Vocabulary and routing -/

/-- Whitespace of the classic locale, which `operator>>` skips and stops at:
space, tab, newline, vertical tab, form feed, carriage return. -/
def isspace (c : Char) : Bool := c == ' ' || (9 ≤ c.toNat && c.toNat ≤ 13)

/-- Extraction `vocab >> word` on a good stream: leading whitespace is skipped,
then bytes are taken up to the next whitespace or the end of the input.  `none`
is the failed extraction: nothing but whitespace was left, the stream is at its
end and has its eofbit set. -/
def extractWord (inp : List Char) : Option (List Char × List Char) :=
  match inp.dropWhile isspace with
  | [] => none
  | c :: cs =>
    some ((c :: cs).takeWhile (fun x => !isspace x), (c :: cs).dropWhile (fun x => !isspace x))

/-- Modelled from the spec: the data members of `SingleVocabFilter` are declared
in `lm/filter.hh`, which is not among the sources.  `words_` is the membership
set of words, compared by their bytes; `backing_` owns the strings the set
refers to, in the order they were pushed. -/
structure SingleVocabFilter where
  words_ : Finset (List Char)
  backing_ : List (List Char)

/-- The `while (vocab >> *word)` loop of the constructor of `SingleVocabFilter`.
`words_.insert(...).second` is true exactly when the word was not yet a member. -/
def SingleVocabFilterLoop : Nat → List Char → SingleVocabFilter → Option SingleVocabFilter
  | 0, _, _ => none
  | fuel + 1, vocab, f =>
    match extractWord vocab with
    | none => some f
    | some (word, rest) =>
      if word ∉ f.words_ then
        SingleVocabFilterLoop fuel rest ⟨insert word f.words_, f.backing_ ++ [word]⟩
      else SingleVocabFilterLoop fuel rest f

/-- Constructor `SingleVocabFilter(vocab, out)`.  The loop ends when an
extraction fails, which on a good stream happens at the end of the input only,
so the test `!vocab.eof()` is false and `err(1, ...)` is not reached; a read
error of the device is outside the model.  The base class constructor, which
opens the output `out`, is in `lm/filter.hh`.  The loop is given one round per
input byte plus one. -/
def SingleVocabFilter.create (vocab : List Char) : Option SingleVocabFilter :=
  SingleVocabFilterLoop (vocab.length + 1) vocab ⟨∅, []⟩

/-- Modelled from the spec: the data members of
`MultipleVocabMultipleOutputFilter` are declared in `lm/filter.hh`, which is not
among the sources.  `vocabs_` is the caller's association of words with
destinations, of a type `Map` that the constructor only copies; `files_` holds
one writer per destination, each kept here with the name its constructor opened. -/
structure MultipleVocabMultipleOutputFilter (Map : Type) where
  vocabs_ : Map
  files_ : List (List Char × OutputLM)

/-- The `for` loop of the constructor of `MultipleVocabMultipleOutputFilter`;
counter and bound are both `unsigned int`.  `pfx` is the C string `prefix`,
`canOpen` the file system, and `uninitialised i` the value the `i`-th writer
finds in its counter.  An exception of `new OutputLM(...)` leaves the loop and
the constructor; the writers created so far are destroyed with `files_`. -/
def MultipleVocabMultipleOutputFilterLoop (canOpen : List Char → Bool) (pfx : List Char)
    (uninitialised : Nat → Nat) (sentence_count : Nat) :
    Nat → Nat → List (List Char × OutputLM) →
      Option (Except Failure (List (List Char × OutputLM)))
  | 0, _, _ => none
  | fuel + 1, i, files_ =>
    if i < sentence_count then
      match OutputLM.construct canOpen (pfx ++ decimal i) (uninitialised i) with
      | .error e => some (.error e)
      | .ok w =>
        MultipleVocabMultipleOutputFilterLoop canOpen pfx uninitialised sentence_count fuel
          ((i + 1) % 4294967296) (files_ ++ [(pfx ++ decimal i, w)])
    else some (.ok files_)

/-- Constructor `MultipleVocabMultipleOutputFilter(vocabs, sentence_count, prefix)`
on the file system `canOpen`: the router, or the exception that a failed `open`
threw, after which no router and no writer exists.  The loop is given
`sentence_count + 1` rounds. -/
def MultipleVocabMultipleOutputFilter.create {Map : Type} (canOpen : List Char → Bool)
    (vocabs : Map) (sentence_count : Nat) (pfx : List Char) (uninitialised : Nat → Nat) :
    Option (Except Failure (MultipleVocabMultipleOutputFilter Map)) :=
  match MultipleVocabMultipleOutputFilterLoop canOpen pfx uninitialised sentence_count
      (sentence_count + 1) 0 [] with
  | none => none
  | some (.error e) => some (.error e)
  | some (.ok files_) => some (.ok ⟨vocabs, files_⟩)

/-! ## Formats, as the specification words them -/

/-- Lines joined, each followed by a newline. -/
def unlines : List (List Char) → List Char
  | [] => []
  | l :: ls => l ++ '\n' :: unlines ls

/-- A header line `ngram <n>=<c>`, without its newline. -/
def countLine (n c : Nat) : List Char := "ngram ".toList ++ decimal n ++ '=' :: decimal c

/-- Header lines for the counts `cs`, the lengths counted up from `first`, each
line followed by a newline. -/
def countLines : Nat → List Nat → List Char
  | _, [] => []
  | first, c :: cs => countLine first c ++ '\n' :: countLines (first + 1) cs

/-- The header block: an empty line, the line `\data\`, one line
`ngram <i+1>=<number[i]>` per index `i` in order, and an empty line. -/
def headerText (number : List Nat) : List Char :=
  '\n' :: ("\\data\\".toList ++ '\n' :: (countLines 1 number ++ ['\n']))

/-- Text of a header line between the six bytes `ngram ` and the first `=`: the
declared length, as `ReadCounts` cuts it out. -/
def lengthField (line : List Char) : List Char :=
  (line.drop 6).take (line.indexOf '=' - 6)

/-- Text of a header line after its first `=`: the count, as `ReadCounts` cuts it out. -/
def countField (line : List Char) : List Char :=
  line.drop (line.indexOf '=' + 1)

/-- The loop body of `ReadCounts` accepts `line` when `idx` entries have been
read, and appends `c`: the line is not empty, starts with `ngram `, has an `=`,
its declared length converts to a value whose predecessor modulo `2^32` is
`idx`, and its count converts to `c`. -/
def AcceptedLine (line : List Char) (idx c : Nat) : Prop :=
  line ≠ [] ∧ '\n' ∉ line ∧ line.take 6 = "ngram ".toList ∧ line.indexOf '=' ≠ line.length ∧
    ∃ n, lexical_cast_unsigned_int (lengthField line) = .ok n ∧
      (n + 4294967295) % 4294967296 = idx ∧
      lexical_cast_unsigned_int (countField line) = .ok c

/-- Consecutive accepted lines, from `idx` entries read, with the counts they append. -/
def AcceptedLines : Nat → List (List Char) → List Nat → Prop
  | _, [], [] => True
  | idx, l :: ls, c :: cs => AcceptedLine l idx c ∧ AcceptedLines (idx + 1) ls cs
  | _, _, _ => False

/-- The lines of `countLines`, as a list of lines without their newlines. -/
def countLineList : Nat → List Nat → List (List Char)
  | _, [] => []
  | first, c :: cs => countLine first c :: countLineList (first + 1) cs

/-- The section marker line of length `k`, without its newline: one backslash,
`decimal k`, and the text `-grams:`. -/
def sectionMarker (k : Nat) : List Char := '\\' :: (decimal k ++ "-grams:".toList)

/-- A call of one of the four methods of the writer. -/
inductive Call where
  | ReserveForCounts (reserve : Int)
  | BeginLength (length : Nat)
  | EndLength (length : Nat)
  | Finish
  deriving DecidableEq

/-- One call on a writer; `none` as for the method called. -/
def OutputLM.call (w : OutputLM) : Call → Option OutputLM
  | .ReserveForCounts reserve => some (w.ReserveForCounts reserve)
  | .BeginLength length => some (w.BeginLength length)
  | .EndLength length => w.EndLength length
  | .Finish => w.Finish

/-- A sequence of calls on one writer, in order. -/
def OutputLM.run : OutputLM → List Call → Option OutputLM
  | w, [] => some w
  | w, c :: cs =>
    match w.call c with
    | none => none
    | some w1 => OutputLM.run w1 cs

/-- The whitespace-delimited tokens of an input: the non-empty pieces between
whitespace bytes. -/
def tokens (inp : List Char) : List (List Char) :=
  (inp.splitOnP isspace).filter (fun t => !t.isEmpty)

/-- The text of one section: the marker line of length `k`, the records, one
per line, and an empty line. -/
def sectionText (k : Nat) (records : List (List Char)) : List Char :=
  sectionMarker k ++ '\n' :: (unlines records ++ ['\n'])

/-- The text of consecutive sections, for the lengths from `k` on. -/
def bodyText : Nat → List (List (List Char)) → List Char
  | _, [] => []
  | k, s :: ss => sectionText k s ++ bodyText (k + 1) ss

/-- A writer emits one section: `BeginLength(k)`, one `AddNGram` per record,
`EndLength(k)`. -/
def writeSection (w : OutputLM) (k : Nat) (records : List (List Char)) : Option OutputLM :=
  (records.foldl OutputLM.AddNGram (w.BeginLength k)).EndLength k

/-- A writer emits consecutive sections, for the lengths from `k` on. -/
def writeSections : OutputLM → Nat → List (List (List Char)) → Option OutputLM
  | w, _, [] => some w
  | w, k, s :: ss =>
    match writeSection w k s with
    | none => none
    | some w1 => writeSections w1 (k + 1) ss

/-- A whole run of a fresh writer: `ReserveForCounts(R)`, the sections for the
lengths `1, 2, ...` in order, `Finish`. -/
def writeModel (uninitialised : Nat) (R : Int) (sections : List (List (List Char))) :
    Option OutputLM :=
  match writeSections ((OutputLM.create uninitialised).ReserveForCounts R) 1 sections with
  | none => none
  | some w => w.Finish

/-- A reader takes `n` lines with `getline`. -/
def readLines : Nat → List Char → Option (List (List Char) × List Char)
  | 0, inp => some ([], inp)
  | n + 1, inp =>
    match getline inp with
    | none => none
    | some (l, rest) =>
      match readLines n rest with
      | none => none
      | some (ls, rest2) => some (l :: ls, rest2)

/-- A reader takes one section: `ReadNGramHeader(k)` succeeds, then come `c`
records and one empty line. -/
def readSection (inp : List Char) (k c : Nat) : Option (List (List Char) × List Char) :=
  match ReadNGramHeader inp k with
  | some (.ok rest) =>
    match readLines c rest with
    | some (records, rest2) =>
      match getline rest2 with
      | some ([], rest3) => some (records, rest3)
      | _ => none
    | none => none
  | _ => none

/-- A reader takes consecutive sections with the given record counts, for the
lengths from `k` on. -/
def readSections : Nat → List Nat → List Char → Option (List (List (List Char)) × List Char)
  | _, [], inp => some ([], inp)
  | k, c :: cs, inp =>
    match readSection inp k c with
    | none => none
    | some (records, rest) =>
      match readSections (k + 1) cs rest with
      | none => none
      | some (ss, rest2) => some (records :: ss, rest2)

/-- A reader takes a whole model: `ReadCounts`, then one section per ledger
entry, then `ReadEnd`.  On success: the ledger, the records of every section,
and the unread input. -/
def readModel (inp : List Char) :
    Option (List Nat × List (List (List Char)) × List Char) :=
  match ReadCounts inp with
  | some (.ok (number, rest)) =>
    match readSections 1 number rest with
    | some (ss, rest2) =>
      match ReadEnd rest2 with
      | .ok rest3 => some (number, ss, rest3)
      | .error _ => none
    | none => none
  | _ => none

/-- One round of the loop of the constructor of `SingleVocabFilter` on an
extracted word: a word that is not yet a member joins `words_` and is pushed
onto `backing_`; a member changes nothing. -/
def SingleVocabFilter.addWord (f : SingleVocabFilter) (word : List Char) : SingleVocabFilter :=
  if word ∉ f.words_ then ⟨insert word f.words_, f.backing_ ++ [word]⟩ else f

/-! ## Decimal text -/

theorem digitChar_toNat {d : Nat} (h : d < 10) : (digitChar d).toNat = 48 + d := by
  interval_cases d <;> decide

theorem digitChar_isDigit {d : Nat} (h : d < 10) : (digitChar d).isDigit = true := by
  interval_cases d <;> decide

theorem decimalCore_eq (n : Nat) : ∀ (fuel : Nat) (acc : List Char), n < fuel →
    decimalCore fuel n acc = decimalCore (n + 1) n [] ++ acc := by
  induction n using Nat.strong_induction_on with
  | _ n ih =>
    intro fuel acc h
    obtain ⟨f, rfl⟩ : ∃ f, fuel = f + 1 := ⟨fuel - 1, by omega⟩
    by_cases h10 : n < 10
    · simp [decimalCore, h10]
    · have e1 : decimalCore (f + 1) n acc
          = decimalCore f (n / 10) (digitChar (n % 10) :: acc) := by
        simp [decimalCore, h10]
      have e2 : decimalCore (n + 1) n []
          = decimalCore n (n / 10) [digitChar (n % 10)] := by
        simp [decimalCore, h10]
      rw [e1, e2, ih (n / 10) (by omega) f _ (by omega),
        ih (n / 10) (by omega) n [digitChar (n % 10)] (by omega)]
      simp

theorem decimal_lt_ten {n : Nat} (h : n < 10) : decimal n = [digitChar n] := by
  simp [decimal, decimalCore, h]

theorem decimal_ge_ten {n : Nat} (h : 10 ≤ n) :
    decimal n = decimal (n / 10) ++ [digitChar (n % 10)] := by
  have h10 : ¬ n < 10 := by omega
  have e2 : decimalCore (n + 1) n []
      = decimalCore n (n / 10) [digitChar (n % 10)] := by
    simp [decimalCore, h10]
  rw [decimal, e2, decimalCore_eq (n / 10) n _ (by omega)]
  rfl

theorem decimal_ne_nil (n : Nat) : decimal n ≠ [] := by
  by_cases h : n < 10
  · simp [decimal_lt_ten h]
  · rw [decimal_ge_ten (by omega)]; simp

theorem decimal_isDigit (n : Nat) : ∀ c ∈ decimal n, c.isDigit = true := by
  induction n using Nat.strong_induction_on with
  | _ n ih =>
    intro c hc
    by_cases h : n < 10
    · rw [decimal_lt_ten h] at hc
      simp at hc
      subst hc
      exact digitChar_isDigit h
    · rw [decimal_ge_ten (by omega)] at hc
      rcases List.mem_append.mp hc with hc | hc
      · exact ih (n / 10) (by omega) c hc
      · simp at hc
        subst hc
        exact digitChar_isDigit (Nat.mod_lt _ (by omega))

theorem digitsValue_append (s : List Char) (c : Char) :
    digitsValue (s ++ [c]) = digitsValue s * 10 + (c.toNat - 48) := by
  simp [digitsValue, List.foldl_append]

theorem digitsValue_decimal (n : Nat) : digitsValue (decimal n) = n := by
  induction n using Nat.strong_induction_on with
  | _ n ih =>
    by_cases h : n < 10
    · rw [decimal_lt_ten h]
      simp [digitsValue, digitChar_toNat h]
    · rw [decimal_ge_ten (by omega), digitsValue_append, ih (n / 10) (by omega),
        digitChar_toNat (Nat.mod_lt _ (by omega))]
      omega

theorem decimal_injective {m n : Nat} (h : decimal m = decimal n) : m = n := by
  rw [← digitsValue_decimal m, ← digitsValue_decimal n, h]

theorem decimal_length_mono {m n : Nat} (h : m ≤ n) :
    (decimal m).length ≤ (decimal n).length := by
  induction n using Nat.strong_induction_on generalizing m with
  | _ n ih =>
    by_cases hm : m < 10
    · rw [decimal_lt_ten hm]
      have := decimal_ne_nil n
      cases hd : decimal n with
      | nil => exact absurd hd this
      | cons a t => simp
    · have hn : 10 ≤ n := by omega
      rw [decimal_ge_ten (by omega : 10 ≤ m), decimal_ge_ten hn]
      simp only [List.length_append, List.length_singleton]
      have := ih (n / 10) (by omega) (Nat.div_le_div_right (c := 10) h)
      omega

theorem not_isDigit_of_mem {s : List Char} {c : Char} (hs : ∀ x ∈ s, x.isDigit = true)
    (hc : c.isDigit = false) : c ∉ s := by
  intro hmem
  have := hs c hmem
  rw [hc] at this
  exact Bool.noConfusion this

theorem lexical_cast_decimal {n : Nat} (h : n < 4294967296) :
    lexical_cast_unsigned_int (decimal n) = .ok n := by
  have hne := decimal_ne_nil n
  have hdig := decimal_isDigit n
  have hminus : (decimal n).head? ≠ some '-' := by
    intro hh
    have : '-' ∈ decimal n := List.mem_of_mem_head? hh
    exact not_isDigit_of_mem hdig (by decide) this
  have hplus : (decimal n).head? ≠ some '+' := by
    intro hh
    have : '+' ∈ decimal n := List.mem_of_mem_head? hh
    exact not_isDigit_of_mem hdig (by decide) this
  have hall : (decimal n).all Char.isDigit = true := by
    rw [List.all_eq_true]; exact hdig
  simp only [lexical_cast_unsigned_int, hminus, hplus, or_self, if_false, hne, hall,
    digitsValue_decimal]
  simp
  omega

/-! ## Lines of an input -/

theorem getline_of_ne_nil {inp : List Char} (h : inp ≠ []) :
    getline inp = some (inp.takeWhile (fun c => c != '\n'),
      (inp.dropWhile (fun c => c != '\n')).tail) := by
  cases inp with
  | nil => exact absurd rfl h
  | cons a t => rfl

theorem getline_nil : getline [] = none := rfl

theorem getline_line {l : List Char} (h : '\n' ∉ l) (rest : List Char) :
    getline (l ++ '\n' :: rest) = some (l, rest) := by
  have hp : ∀ a ∈ l, (fun c : Char => c != '\n') a = true := by
    intro a ha
    have : a ≠ '\n' := fun e => h (e ▸ ha)
    simpa using this
  rw [getline_of_ne_nil (by simp), List.takeWhile_append_of_pos hp,
    List.dropWhile_append_of_pos hp]
  simp

theorem getline_last {l : List Char} (h : '\n' ∉ l) (hne : l ≠ []) :
    getline l = some (l, []) := by
  have hp : ∀ a ∈ l, (fun c : Char => c != '\n') a = true := by
    intro a ha
    have : a ≠ '\n' := fun e => h (e ▸ ha)
    simpa using this
  have h1 : (l ++ []).takeWhile (fun c : Char => c != '\n')
      = l ++ List.takeWhile (fun c : Char => c != '\n') [] :=
    List.takeWhile_append_of_pos hp
  have h2 : (l ++ []).dropWhile (fun c : Char => c != '\n')
      = List.dropWhile (fun c : Char => c != '\n') [] :=
    List.dropWhile_append_of_pos hp
  simp only [List.append_nil, List.takeWhile_nil, List.dropWhile_nil] at h1 h2
  rw [getline_of_ne_nil hne, h1, h2]
  rfl

theorem getline_some {inp l rest : List Char} (h : getline inp = some (l, rest)) :
    '\n' ∉ l ∧ (inp = l ++ '\n' :: rest ∨ (inp = l ∧ rest = [] ∧ l ≠ [])) := by
  have hne : inp ≠ [] := by
    intro e
    rw [e, getline_nil] at h
    exact Option.noConfusion h
  rw [getline_of_ne_nil hne] at h
  simp only [Option.some.injEq, Prod.mk.injEq] at h
  obtain ⟨hl, hr⟩ := h
  have hmem : '\n' ∉ l := by
    intro hm
    rw [← hl] at hm
    have := List.mem_takeWhile_imp hm
    simp at this
  refine ⟨hmem, ?_⟩
  have hsplit := List.takeWhile_append_dropWhile (fun c : Char => c != '\n') inp
  rw [hl] at hsplit
  cases hd : inp.dropWhile (fun c : Char => c != '\n') with
  | nil =>
    right
    rw [hd] at hsplit hr
    simp only [List.append_nil] at hsplit
    refine ⟨hsplit.symm, by simpa using hr.symm, ?_⟩
    rw [hsplit]
    exact hne
  | cons c t =>
    left
    have hhead := List.head?_dropWhile_not (fun c : Char => c != '\n') inp
    rw [hd] at hhead hsplit hr
    simp only [List.head?_cons, Option.all_some, Bool.not_eq_true',
      bne_eq_false_iff_eq] at hhead
    simp only [List.tail_cons] at hr
    rw [← hsplit, hhead, hr]

theorem getline_length {inp l rest : List Char} (h : getline inp = some (l, rest)) :
    rest.length < inp.length := by
  obtain ⟨_, h1 | ⟨h1, h2, h3⟩⟩ := getline_some h
  · rw [h1]; simp; omega
  · rw [h2, h1]
    cases l with
    | nil => exact absurd rfl h3
    | cons a t => simp


/-! ## Output streams -/

theorem OStream.write_nil (s : OStream) : s.write [] = s := by
  cases s with
  | mk c p =>
    simp only [OStream.write, List.length_nil, Nat.add_zero, List.append_nil,
      List.take_append_drop]

theorem OStream.write_pos (s : OStream) (a : List Char) : (s.write a).pos = s.pos + a.length := rfl

theorem OStream.write_content_length (s : OStream) (a : List Char)
    (h : s.pos ≤ s.content.length) : (s.write a).pos ≤ (s.write a).content.length := by
  simp only [OStream.write, List.length_append, List.length_take, List.length_drop]
  omega

theorem OStream.write_write (s : OStream) (a b : List Char) :
    (s.write a).write b = s.write (a ++ b) := by
  cases s with
  | mk c p =>
    simp only [OStream.write, List.length_append, OStream.mk.injEq]
    refine ⟨?_, by omega⟩
    by_cases hp : p ≤ c.length
    · have hlen : (List.take p c ++ a).length = p + a.length := by
        simp [List.length_take, Nat.min_eq_left hp]
      have e1 : List.take (p + a.length) (List.take p c ++ a ++ List.drop (p + a.length) c)
          = List.take p c ++ a := by
        rw [← hlen]; exact List.take_left' rfl
      have e2 : List.drop (p + a.length + b.length)
          (List.take p c ++ a ++ List.drop (p + a.length) c)
          = List.drop (p + (a.length + b.length)) c := by
        rw [show p + a.length + b.length = (List.take p c ++ a).length + b.length by omega,
          List.drop_append, List.drop_drop]
        congr 1
        omega
      rw [e1, e2]
      simp
    · have hp2 : c.length < p := by omega
      have t1 : List.take p c = c := List.take_of_length_le (by omega)
      have d1 : List.drop (p + a.length) c = [] := List.drop_of_length_le (by omega)
      have d2 : List.drop (p + (a.length + b.length)) c = [] :=
        List.drop_of_length_le (by omega)
      rw [t1, d1, d2]
      simp only [List.append_nil]
      rw [List.take_of_length_le (by simp; omega), List.drop_of_length_le (by simp; omega)]
      simp

theorem OStream.write_at_end (s : OStream) (a : List Char) (h : s.pos = s.content.length) :
    s.write a = ⟨s.content ++ a, s.content.length + a.length⟩ := by
  cases s with
  | mk c p =>
    simp only at h
    subst h
    simp [OStream.write]

/-! ## `WriteCounts` in closed form -/

theorem WriteCountsLoop_eq (number : List Nat) (hlen : number.length < 4294967296) :
    ∀ (cs pre : List Nat) (fuel : Nat) (out : OStream), number = pre ++ cs → cs.length < fuel →
      WriteCountsLoop number fuel pre.length out
        = some (out.write (countLines (pre.length + 1) cs)) := by
  intro cs
  induction cs with
  | nil =>
    intro pre fuel out hnum hfuel
    obtain ⟨f, rfl⟩ : ∃ f, fuel = f + 1 := ⟨fuel - 1, by simp at hfuel; omega⟩
    have : ¬ pre.length < number.length := by rw [hnum]; simp
    simp [WriteCountsLoop, this, countLines, OStream.write_nil]
  | cons c cs ih =>
    intro pre fuel out hnum hfuel
    obtain ⟨f, rfl⟩ : ∃ f, fuel = f + 1 := ⟨fuel - 1, by simp at hfuel; omega⟩
    have hlt : pre.length < number.length := by rw [hnum]; simp
    have hget : number[pre.length] = c := by
      have h? : number[pre.length]? = some c := by
        rw [hnum, List.getElem?_append_right (Nat.le_refl _)]; simp
      obtain ⟨_, hh⟩ := List.getElem?_eq_some.mp h?
      exact hh
    have hmod : (pre.length + 1) % 4294967296 = pre.length + 1 :=
      Nat.mod_eq_of_lt (by omega)
    have hnum2 : number = (pre ++ [c]) ++ cs := by simp [hnum]
    have hfuel2 : cs.length < f := by simp at hfuel; omega
    have hrec := ih (pre ++ [c]) f
      (((((out.write "ngram ".toList).write (decimal (pre.length + 1))).write
          "=".toList).write (decimal c)).write ['\n']) hnum2 hfuel2
    simp only [List.length_append, List.length_singleton] at hrec
    rw [WriteCountsLoop, dif_pos hlt, hmod, hget, hrec]
    simp [OStream.write_write, countLines, countLine]

theorem WriteCountsLoop_none_of_large (number : List Nat)
    (hlen : 4294967296 ≤ number.length) :
    ∀ (fuel i : Nat) (out : OStream), i < 4294967296 →
      WriteCountsLoop number fuel i out = none := by
  intro fuel
  induction fuel with
  | zero => intro i out _; rfl
  | succ f ih =>
    intro i out hi
    have hlt : i < number.length := by omega
    rw [WriteCountsLoop, dif_pos hlt]
    exact ih _ _ (Nat.mod_lt _ (by omega))

theorem WriteCountsLoop_none_of_short (number : List Nat)
    (hlen : number.length < 4294967296) :
    ∀ (fuel i : Nat) (out : OStream), i + fuel ≤ number.length →
      WriteCountsLoop number fuel i out = none := by
  intro fuel
  induction fuel with
  | zero => intro i out _; rfl
  | succ f ih =>
    intro i out hi
    have hlt : i < number.length := by omega
    rw [WriteCountsLoop, dif_pos hlt, Nat.mod_eq_of_lt (by omega : i + 1 < 4294967296)]
    exact ih _ _ (by omega)

theorem WriteCounts_eq (out : OStream) (number : List Nat)
    (hlen : number.length < 4294967296) :
    WriteCounts out number = some (out.write (headerText number)) := by
  have h := WriteCountsLoop_eq number hlen number [] (number.length + 1)
    (out.write "\n\\data\\\n".toList) rfl (by omega)
  simp only [List.length_nil, Nat.zero_add] at h
  rw [WriteCounts, h]
  simp only [Option.map_some', OStream.write_write, headerText]
  rfl

theorem WriteCounts_none (out : OStream) (number : List Nat)
    (hlen : 4294967296 ≤ number.length) : WriteCounts out number = none := by
  rw [WriteCounts, WriteCountsLoop_none_of_large number hlen _ 0 _ (by omega)]
  rfl

/-- The loop of `WriteCounts` exits within some number of rounds only for a
vector of fewer than `2^32` entries, and then within `number.size() + 1` rounds. -/
theorem WriteCountsLoop_fuel_irrelevant (number : List Nat) (fuel : Nat) (out r : OStream)
    (h : WriteCountsLoop number fuel 0 out = some r) :
    number.length < 4294967296 ∧ WriteCountsLoop number (number.length + 1) 0 out = some r := by
  have hlen : number.length < 4294967296 := by
    by_contra hc
    rw [WriteCountsLoop_none_of_large number (by omega) fuel 0 out (by omega)] at h
    exact Option.noConfusion h
  refine ⟨hlen, ?_⟩
  have hfuel : number.length < fuel := by
    by_contra hc
    rw [WriteCountsLoop_none_of_short number hlen fuel 0 out (by omega)] at h
    exact Option.noConfusion h
  have h1 := WriteCountsLoop_eq number hlen number [] fuel out rfl hfuel
  have h2 := WriteCountsLoop_eq number hlen number [] (number.length + 1) out rfl (by omega)
  simp only [List.length_nil] at h1 h2
  rw [h2, ← h1, h]

theorem SizeNeededForCounts_eq (number : List Nat) (hlen : number.length < 4294967296) :
    SizeNeededForCounts number = some (headerText number).length := by
  rw [SizeNeededForCounts, WriteCounts_eq _ _ hlen]
  simp [OStream.tellp, OStream.write, OStream.empty]

/-! ## The loop of `ReadCounts` -/

theorem ReadCountsLoop_eof (fuel : Nat) (number : List Nat) :
    ReadCountsLoop (fuel + 1) [] number = some (.error (.err 2)) := rfl

theorem ReadCountsLoop_blank (fuel : Nat) (rest : List Char) (number : List Nat) :
    ReadCountsLoop (fuel + 1) ('\n' :: rest) number = some (.ok (number, rest)) := by
  have h : getline ('\n' :: rest) = some ([], rest) := getline_line (l := []) (by simp) rest
  simp [ReadCountsLoop, h]

theorem ReadCountsLoop_accept {line : List Char} {number : List Nat} {c : Nat}
    (hacc : AcceptedLine line number.length c) {inp rest : List Char}
    (hget : getline inp = some (line, rest)) (fuel : Nat) :
    ReadCountsLoop (fuel + 1) inp number = ReadCountsLoop fuel rest (number ++ [c]) := by
  obtain ⟨hne, _, htake, heq, n, hlen, hidx, hcnt⟩ := hacc
  simp only [lengthField, countField] at hlen hcnt
  simp only [ReadCountsLoop, hget, hne, htake, heq, hlen, hidx, hcnt, if_false, ne_eq,
    not_true_eq_false]

theorem ReadCountsLoop_ok_inv {fuel : Nat} {inp : List Char} {number res : List Nat}
    {rest : List Char}
    (h : ReadCountsLoop (fuel + 1) inp number = some (.ok (res, rest))) :
    (getline inp = some ([], rest) ∧ res = number) ∨
      ∃ line r1 c, getline inp = some (line, r1) ∧ AcceptedLine line number.length c ∧
        ReadCountsLoop fuel r1 (number ++ [c]) = some (.ok (res, rest)) := by
  rw [ReadCountsLoop] at h
  cases hg : getline inp with
  | none => rw [hg] at h; simp at h
  | some p =>
    obtain ⟨line, r1⟩ := p
    rw [hg] at h
    simp only at h
    by_cases hne : line = []
    · left
      rw [if_pos hne] at h
      simp only [Option.some.injEq, Except.ok.injEq, Prod.mk.injEq] at h
      rw [hne, h.2, h.1]
      exact ⟨rfl, rfl⟩
    · right
      rw [if_neg hne] at h
      by_cases htake : line.take 6 = "ngram ".toList
      · rw [if_neg (not_not.mpr htake)] at h
        by_cases heq : line.indexOf '=' = line.length
        · rw [if_pos heq] at h; simp at h
        · rw [if_neg heq] at h
          cases hlen : lexical_cast_unsigned_int ((line.drop 6).take (line.indexOf '=' - 6)) with
          | error e => rw [hlen] at h; simp at h
          | ok n =>
            rw [hlen] at h
            simp only at h
            by_cases hidx : (n + 4294967295) % 4294967296 = number.length
            · rw [if_neg (not_not.mpr hidx)] at h
              cases hcnt : lexical_cast_unsigned_int (line.drop (line.indexOf '=' + 1)) with
              | error e => rw [hcnt] at h; simp at h
              | ok c =>
                rw [hcnt] at h
                simp only at h
                exact ⟨line, r1, c, rfl,
                  ⟨hne, (getline_some hg).1, htake, heq, n, hlen, hidx, hcnt⟩, h⟩
            · rw [if_pos hidx] at h; simp at h
      · rw [if_pos htake] at h; simp at h

theorem ReadCountsLoop_terminates : ∀ (fuel : Nat) (inp : List Char) (number : List Nat),
    inp.length < fuel → ReadCountsLoop fuel inp number ≠ none := by
  intro fuel
  induction fuel with
  | zero => intro inp number h; omega
  | succ f ih =>
    intro inp number hlen
    rw [ReadCountsLoop]
    cases hg : getline inp with
    | none => simp
    | some p =>
      obtain ⟨line, r1⟩ := p
      have hr := getline_length hg
      simp only
      repeat' split
      all_goals first
        | exact ih _ _ (by omega)
        | simp

theorem AcceptedLines_length : ∀ {idx : Nat} {ls : List (List Char)} {cs : List Nat},
    AcceptedLines idx ls cs → ls.length = cs.length
  | _, [], [], _ => rfl
  | _, [], _ :: _, h => h.elim
  | _, _ :: _, [], h => h.elim
  | _, _ :: _, _ :: _, h => by
    simp only [List.length_cons]
    rw [AcceptedLines_length h.2]

/-- Accepted lines followed by an empty line: the loop returns their counts and
stops right after the empty line. -/
theorem ReadCountsLoop_lines : ∀ (ls : List (List Char)) (cs number : List Nat) (fuel : Nat)
    (rest : List Char), AcceptedLines number.length ls cs → ls.length < fuel →
    ReadCountsLoop fuel (unlines ls ++ '\n' :: rest) number = some (.ok (number ++ cs, rest)) := by
  intro ls
  induction ls with
  | nil =>
    intro cs number fuel rest hacc hfuel
    obtain ⟨f, rfl⟩ : ∃ f, fuel = f + 1 := ⟨fuel - 1, by simp at hfuel; omega⟩
    cases cs with
    | nil => simp [unlines, ReadCountsLoop_blank]
    | cons c cs => exact hacc.elim
  | cons l ls ih =>
    intro cs number fuel rest hacc hfuel
    obtain ⟨f, rfl⟩ : ∃ f, fuel = f + 1 := ⟨fuel - 1, by simp at hfuel; omega⟩
    cases cs with
    | nil => exact hacc.elim
    | cons c cs =>
      obtain ⟨hl, hrest⟩ := hacc
      have hg : getline (unlines (l :: ls) ++ '\n' :: rest)
          = some (l, unlines ls ++ '\n' :: rest) := by
        simp only [unlines, List.append_assoc, List.cons_append]
        exact getline_line hl.2.1 _
      rw [ReadCountsLoop_accept hl hg f]
      have hrest2 : AcceptedLines (number ++ [c]).length ls cs := by simpa using hrest
      rw [ih cs (number ++ [c]) f rest hrest2 (by simp at hfuel; omega)]
      simp

/-- Accepted lines and then the end of the input: the loop ends in `err(2, ...)`. -/
theorem ReadCountsLoop_truncated : ∀ (ls : List (List Char)) (cs number : List Nat) (fuel : Nat),
    AcceptedLines number.length ls cs → ls.length < fuel →
    ReadCountsLoop fuel (unlines ls) number = some (.error (.err 2)) := by
  intro ls
  induction ls with
  | nil =>
    intro cs number fuel hacc hfuel
    obtain ⟨f, rfl⟩ : ∃ f, fuel = f + 1 := ⟨fuel - 1, by simp at hfuel; omega⟩
    rfl
  | cons l ls ih =>
    intro cs number fuel hacc hfuel
    obtain ⟨f, rfl⟩ : ∃ f, fuel = f + 1 := ⟨fuel - 1, by simp at hfuel; omega⟩
    cases cs with
    | nil => exact hacc.elim
    | cons c cs =>
      obtain ⟨hl, hrest⟩ := hacc
      have hg : getline (unlines (l :: ls)) = some (l, unlines ls) := by
        simp only [unlines]
        exact getline_line hl.2.1 _
      rw [ReadCountsLoop_accept hl hg f]
      have hrest2 : AcceptedLines (number ++ [c]).length ls cs := by simpa using hrest
      exact ih cs (number ++ [c]) f hrest2 (by simp at hfuel; omega)

/-- Accepted lines of which the last has no newline, and then the end of the
input: the loop ends in `err(2, ...)`. -/
theorem ReadCountsLoop_truncated_last : ∀ (ls : List (List Char)) (l : List Char)
    (cs : List Nat) (c : Nat) (number : List Nat) (fuel : Nat),
    AcceptedLines number.length (ls ++ [l]) (cs ++ [c]) → ls.length + 1 < fuel →
    ReadCountsLoop fuel (unlines ls ++ l) number = some (.error (.err 2)) := by
  intro ls
  induction ls with
  | nil =>
    intro l cs c number fuel hacc hfuel
    obtain ⟨f, rfl⟩ : ∃ f, fuel = f + 1 := ⟨fuel - 1, by simp at hfuel; omega⟩
    obtain ⟨g, rfl⟩ : ∃ g, f = g + 1 := ⟨f - 1, by simp at hfuel; omega⟩
    cases cs with
    | nil =>
      obtain ⟨hl, _⟩ := hacc
      have hg : getline (unlines [] ++ l) = some (l, []) := by
        simp only [unlines, List.nil_append]
        exact getline_last hl.2.1 hl.1
      rw [ReadCountsLoop_accept hl hg (g + 1)]
      rfl
    | cons c1 cs =>
      have := AcceptedLines_length hacc
      simp at this
  | cons l1 ls ih =>
    intro l cs c number fuel hacc hfuel
    obtain ⟨f, rfl⟩ : ∃ f, fuel = f + 1 := ⟨fuel - 1, by simp at hfuel; omega⟩
    cases cs with
    | nil =>
      have := AcceptedLines_length hacc
      simp at this
    | cons c1 cs =>
      obtain ⟨hl, hrest⟩ := hacc
      have hg : getline (unlines (l1 :: ls) ++ l) = some (l1, unlines ls ++ l) := by
        simp only [unlines, List.append_assoc, List.cons_append]
        exact getline_line hl.2.1 _
      rw [ReadCountsLoop_accept hl hg f]
      have hrest2 : AcceptedLines (number ++ [c1]).length (ls ++ [l]) (cs ++ [c]) := by
        simpa using hrest
      exact ih l cs c (number ++ [c1]) f hrest2 (by simp at hfuel; omega)

/-- A successful run of the loop read accepted lines and one empty line, and
returns the counts of those lines after the entries it started with. -/
theorem ReadCountsLoop_ok : ∀ (fuel : Nat) (inp : List Char) (number res : List Nat)
    (rest : List Char), ReadCountsLoop fuel inp number = some (.ok (res, rest)) →
    ∃ ls cs, inp = unlines ls ++ '\n' :: rest ∧ res = number ++ cs ∧
      AcceptedLines number.length ls cs := by
  intro fuel
  induction fuel with
  | zero => intro inp number res rest h; exact Option.noConfusion h
  | succ f ih =>
    intro inp number res rest h
    rcases ReadCountsLoop_ok_inv h with ⟨hg, hres⟩ | ⟨line, r1, c, hg, hacc, hrec⟩
    · refine ⟨[], [], ?_, by simp [hres], trivial⟩
      rcases (getline_some hg).2 with h1 | ⟨_, _, h3⟩
      · simpa [unlines] using h1
      · exact absurd rfl h3
    · obtain ⟨ls, cs, hinp, hres, haccs⟩ := ih r1 (number ++ [c]) res rest hrec
      refine ⟨line :: ls, c :: cs, ?_, by simp [hres], ?_⟩
      · rcases (getline_some hg).2 with h1 | ⟨_, h2, _⟩
        · rw [h1, hinp]; simp [unlines]
        · rw [h2] at hinp
          simp at hinp
      · exact ⟨hacc, by simpa using haccs⟩

/-! ## Header lines in the written format are accepted -/

theorem unlines_length_ge : ∀ (ls : List (List Char)), ls.length ≤ (unlines ls).length
  | [] => Nat.le_refl _
  | l :: ls => by
    have := unlines_length_ge ls
    simp only [unlines, List.length_cons, List.length_append]
    omega

theorem countLines_eq_unlines : ∀ (cs : List Nat) (first : Nat),
    countLines first cs = unlines (countLineList first cs)
  | [], _ => rfl
  | c :: cs, first => by
    simp only [countLines, countLineList, unlines]
    rw [countLines_eq_unlines cs (first + 1)]

theorem ngram_line_fields (lenText tail : List Char) (h : '=' ∉ lenText) :
    ("ngram ".toList ++ lenText ++ '=' :: tail).take 6 = "ngram ".toList ∧
    ("ngram ".toList ++ lenText ++ '=' :: tail).indexOf '='
      ≠ ("ngram ".toList ++ lenText ++ '=' :: tail).length ∧
    lengthField ("ngram ".toList ++ lenText ++ '=' :: tail) = lenText ∧
    countField ("ngram ".toList ++ lenText ++ '=' :: tail) = tail := by
  have h6 : "ngram ".toList.length = 6 := rfl
  have hidx : ("ngram ".toList ++ lenText ++ '=' :: tail).indexOf '=' = 6 + lenText.length := by
    have hnot : '=' ∉ "ngram ".toList ++ lenText := by
      intro hm
      rcases List.mem_append.mp hm with h1 | h1
      · revert h1; decide
      · exact h h1
    rw [List.indexOf_append_of_not_mem hnot, List.indexOf_cons_self, List.length_append, h6]
    omega
  refine ⟨?_, ?_, ?_, ?_⟩
  · rw [List.append_assoc]
    exact List.take_left' h6
  · rw [hidx]
    simp only [List.length_append, List.length_cons, h6]
    omega
  · rw [lengthField, hidx, List.append_assoc, List.drop_left' h6]
    exact List.take_left' (by omega)
  · rw [countField, hidx]
    have e : "ngram ".toList ++ lenText ++ '=' :: tail
        = ("ngram ".toList ++ lenText ++ ['=']) ++ tail := by simp
    rw [e]
    exact List.drop_left' (by simp only [List.length_append, List.length_singleton, h6])

/-- A text that `lexical_cast<unsigned int>` converts is a run of digits, with
at most a sign in front. -/
theorem lexical_cast_ok_digits {s : List Char} {n : Nat}
    (h : lexical_cast_unsigned_int s = .ok n) :
    ∃ body, body ≠ [] ∧ (∀ c ∈ body, c.isDigit = true) ∧
      (s = body ∨ s = '-' :: body ∨ s = '+' :: body) := by
  cases s with
  | nil => exact Except.noConfusion h
  | cons a t =>
    by_cases hs : a = '-' ∨ a = '+'
    · have hb : (if (a :: t).head? = some '-' ∨ (a :: t).head? = some '+' then (a :: t).tail
          else a :: t) = t := by
        simp [hs]
      unfold lexical_cast_unsigned_int at h
      simp only [hb] at h
      by_cases ht : t = [] ∨ t.all Char.isDigit = false
      · rw [if_pos ht] at h; exact Except.noConfusion h
      · push_neg at ht
        refine ⟨t, ht.1, ?_, ?_⟩
        · have := ht.2
          simp only [ne_eq, Bool.not_eq_false, List.all_eq_true] at this
          exact this
        · rcases hs with e | e
          · right; left; rw [e]
          · right; right; rw [e]
    · have hb : (if (a :: t).head? = some '-' ∨ (a :: t).head? = some '+' then (a :: t).tail
          else a :: t) = a :: t := by
        simp [hs]
      unfold lexical_cast_unsigned_int at h
      simp only [hb] at h
      by_cases ht : a :: t = [] ∨ (a :: t).all Char.isDigit = false
      · rw [if_pos ht] at h; exact Except.noConfusion h
      · push_neg at ht
        refine ⟨a :: t, ht.1, ?_, Or.inl rfl⟩
        have := ht.2
        simp only [ne_eq, Bool.not_eq_false, List.all_eq_true] at this
        exact this

theorem lexical_cast_ok_no_eq {s : List Char} {n : Nat}
    (h : lexical_cast_unsigned_int s = .ok n) : '=' ∉ s ∧ '\n' ∉ s := by
  obtain ⟨body, _, hdig, hs⟩ := lexical_cast_ok_digits h
  have h1 : '=' ∉ body := not_isDigit_of_mem hdig (by decide)
  have h2 : '\n' ∉ body := not_isDigit_of_mem hdig (by decide)
  rcases hs with e | e | e <;> subst e
  · exact ⟨h1, h2⟩
  · constructor
    · intro hm
      rcases List.mem_cons.mp hm with e | e
      · revert e; decide
      · exact h1 e
    · intro hm
      rcases List.mem_cons.mp hm with e | e
      · revert e; decide
      · exact h2 e
  · constructor
    · intro hm
      rcases List.mem_cons.mp hm with e | e
      · revert e; decide
      · exact h1 e
    · intro hm
      rcases List.mem_cons.mp hm with e | e
      · revert e; decide
      · exact h2 e

theorem lexical_cast_lt {s : List Char} {n : Nat}
    (h : lexical_cast_unsigned_int s = .ok n) : n < 4294967296 := by
  unfold lexical_cast_unsigned_int at h
  simp only at h
  split_ifs at h <;> first
    | exact Except.noConfusion h
    | (simp only [Except.ok.injEq] at h; omega)

theorem countLine_no_newline (n c : Nat) : '\n' ∉ countLine n c := by
  intro hm
  simp only [countLine, List.mem_append, List.mem_cons] at hm
  rcases hm with (h | h) | h | h
  · revert h; decide
  · exact not_isDigit_of_mem (decimal_isDigit n) (by decide) h
  · revert h; decide
  · exact not_isDigit_of_mem (decimal_isDigit c) (by decide) h

theorem countLine_accepted {idx c : Nat} (hidx : idx + 1 < 4294967296) (hc : c < 4294967296) :
    AcceptedLine (countLine (idx + 1) c) idx c := by
  have hno : '=' ∉ decimal (idx + 1) :=
    not_isDigit_of_mem (decimal_isDigit _) (by decide)
  obtain ⟨h1, h2, h3, h4⟩ := ngram_line_fields (decimal (idx + 1)) (decimal c) hno
  refine ⟨by simp [countLine], countLine_no_newline _ _, h1, h2, idx + 1, ?_, by omega, ?_⟩
  · rw [countLine, h3]; exact lexical_cast_decimal hidx
  · rw [countLine, h4]; exact lexical_cast_decimal hc

theorem countLineList_accepted : ∀ (cs : List Nat) (idx : Nat),
    idx + cs.length < 4294967296 → (∀ c ∈ cs, c < 4294967296) →
    AcceptedLines idx (countLineList (idx + 1) cs) cs
  | [], _, _, _ => trivial
  | c :: cs, idx, hlen, hcs => by
    simp only [List.length_cons] at hlen
    exact ⟨countLine_accepted (by omega) (hcs c (by simp)),
      countLineList_accepted cs (idx + 1) (by omega) (fun x hx => hcs x (by simp [hx]))⟩

theorem countLineList_length : ∀ (cs : List Nat) (first : Nat),
    (countLineList first cs).length = cs.length
  | [], _ => rfl
  | c :: cs, first => by simp [countLineList, countLineList_length cs]

/-! ## `ReadCounts` as a whole -/

theorem ReadCounts_preamble (rest2 : List Char) :
    ReadCounts ("\n\\data\\\n".toList ++ rest2) = ReadCountsLoop (rest2.length + 1) rest2 [] := by
  have h1 : getline ("\n\\data\\\n".toList ++ rest2)
      = some ([], "\\data\\".toList ++ '\n' :: rest2) :=
    getline_line (l := []) (by simp) _
  have h2 : getline ("\\data\\".toList ++ '\n' :: rest2) = some ("\\data\\".toList, rest2) :=
    getline_line (by decide) _
  rw [ReadCounts, h1]
  simp only [ne_eq, not_true_eq_false, if_false, h2]

theorem ReadCounts_ok_inv {inp : List Char} {number : List Nat} {rest : List Char}
    (h : ReadCounts inp = some (.ok (number, rest))) :
    ∃ rest2, inp = "\n\\data\\\n".toList ++ rest2 ∧
      ReadCountsLoop (rest2.length + 1) rest2 [] = some (.ok (number, rest)) := by
  rw [ReadCounts] at h
  cases hg : getline inp with
  | none => rw [hg] at h; simp at h
  | some p =>
    obtain ⟨line, r1⟩ := p
    rw [hg] at h
    simp only at h
    by_cases hne : line = []
    · rw [if_neg (not_not.mpr hne)] at h
      subst hne
      cases hg2 : getline r1 with
      | none => rw [hg2] at h; simp at h
      | some p2 =>
        obtain ⟨line2, r2⟩ := p2
        rw [hg2] at h
        simp only at h
        by_cases hd : line2 = "\\data\\".toList
        · rw [if_neg (not_not.mpr hd)] at h
          subst hd
          have e1 : inp = '\n' :: r1 := by
            rcases (getline_some hg).2 with e | ⟨_, _, e⟩
            · simpa using e
            · exact absurd rfl e
          rcases (getline_some hg2).2 with e | ⟨_, e, _⟩
          · refine ⟨r2, ?_, h⟩
            rw [e1, e]
            rfl
          · subst e
            simp [ReadCountsLoop, getline] at h
        · rw [if_pos hd] at h; simp at h
    · rw [if_pos hne] at h; simp at h

theorem ReadCounts_terminates (inp : List Char) : ReadCounts inp ≠ none := by
  rw [ReadCounts]
  repeat' split
  all_goals first
    | exact ReadCountsLoop_terminates _ _ _ (Nat.lt_succ_self _)
    | simp

theorem AcceptedLines_lengthField : ∀ {idx : Nat} {ls : List (List Char)} {cs : List Nat},
    AcceptedLines idx ls cs → ∀ (i : Nat) (h : i < ls.length),
      lexical_cast_unsigned_int (lengthField ls[i]) = .ok ((idx + i + 1) % 4294967296)
  | _, [], _, _ => fun i h => absurd h (Nat.not_lt_zero _)
  | _, _ :: _, [], hacc => hacc.elim
  | idx, l :: ls, c :: cs, hacc => by
    intro i h
    cases i with
    | zero =>
      obtain ⟨⟨_, _, _, _, n, hn, hidx, _⟩, _⟩ := hacc
      have hlt := lexical_cast_lt hn
      have : n = (idx + 0 + 1) % 4294967296 := by omega
      simpa [this] using hn
    | succ j =>
      have := AcceptedLines_lengthField hacc.2 j (by simpa using h)
      simpa [Nat.add_assoc, Nat.add_comm 1 j] using this

theorem AcceptedLines_countField : ∀ {idx : Nat} {ls : List (List Char)} {cs : List Nat},
    AcceptedLines idx ls cs →
      List.Forall₂ (fun l c => lexical_cast_unsigned_int (countField l) = .ok c) ls cs
  | _, [], [], _ => List.Forall₂.nil
  | _, [], _ :: _, h => h.elim
  | _, _ :: _, [], h => h.elim
  | _, _ :: _, _ :: _, hacc => by
    obtain ⟨⟨_, _, _, _, n, _, _, hc⟩, hrest⟩ := hacc
    exact List.Forall₂.cons hc (AcceptedLines_countField hrest)

theorem AcceptedLines_lines : ∀ {idx : Nat} {ls : List (List Char)} {cs : List Nat},
    AcceptedLines idx ls cs → ∀ l ∈ ls, l ≠ [] ∧ '\n' ∉ l ∧ l.take 6 = "ngram ".toList
  | _, [], _, _ => fun l hl => absurd hl (List.not_mem_nil l)
  | _, _ :: _, [], hacc => hacc.elim
  | _, _ :: _, _ :: _, hacc => by
    intro l hl
    rcases List.mem_cons.mp hl with e | e
    · subst e
      exact ⟨hacc.1.1, hacc.1.2.1, hacc.1.2.2.1⟩
    · exact AcceptedLines_lines hacc.2 l e

/-- When `2^32 - 1` entries have been read, a line that declares the length `0`
is accepted: `0 - 1` in `unsigned int` is `4294967295`, the size of the vector. -/
theorem ReadCountsLoop_length_zero_wraps (number : List Nat)
    (h : number.length = 4294967295) :
    ReadCountsLoop 2 "ngram 0=7\n\n".toList number = some (.ok (number ++ [7], [])) := by
  have hacc : AcceptedLine "ngram 0=7".toList number.length 7 :=
    ⟨by decide, by decide, by decide, by decide, 0, by decide, by rw [h], by decide⟩
  have hg : getline "ngram 0=7\n\n".toList = some ("ngram 0=7".toList, "\n".toList) := by
    decide
  rw [ReadCountsLoop_accept hacc hg 1]
  exact ReadCountsLoop_blank 0 [] _

theorem countLineList_concat : ∀ (cs : List Nat) (c first : Nat),
    countLineList first (cs ++ [c])
      = countLineList first cs ++ [countLine (first + cs.length) c]
  | [], _, _ => rfl
  | a :: cs, c, first => by
    show countLine first a :: countLineList (first + 1) (cs ++ [c])
      = countLine first a :: countLineList (first + 1) cs
        ++ [countLine (first + (cs.length + 1)) c]
    rw [countLineList_concat cs c (first + 1)]
    simp [Nat.add_assoc, Nat.add_comm 1]

theorem unlines_concat : ∀ (ls : List (List Char)) (l : List Char),
    unlines (ls ++ [l]) = (unlines ls ++ l) ++ ['\n']
  | [], l => by simp [unlines]
  | a :: ls, l => by
    show a ++ '\n' :: unlines (ls ++ [l]) = ((a ++ '\n' :: unlines ls) ++ l) ++ ['\n']
    rw [unlines_concat ls l]
    simp

/-! ## Section framing -/

theorem ReadNGramHeaderLoop_eq : ∀ (fuel : Nat) (inp : List Char), inp.length < fuel →
    ReadNGramHeaderLoop fuel inp
      = match getline (inp.dropWhile (fun c => c == '\n')) with
        | none => some (.error (.err 2))
        | some p => some (.ok p) := by
  intro fuel
  induction fuel with
  | zero => intro inp h; omega
  | succ f ih =>
    intro inp hlen
    cases inp with
    | nil => rfl
    | cons c t =>
      by_cases hc : c = '\n'
      · subst hc
        have hg : getline ('\n' :: t) = some ([], t) := getline_line (l := []) (by simp) t
        have hd : ('\n' :: t).dropWhile (fun c => c == '\n')
            = t.dropWhile (fun c => c == '\n') := by simp
        rw [ReadNGramHeaderLoop, hg, hd]
        simp only [if_true]
        exact ih t (by simpa using hlen)
      · have hd : (c :: t).dropWhile (fun c => c == '\n') = c :: t := by simp [hc]
        have hg := getline_of_ne_nil (List.cons_ne_nil c t)
        have hline : (c :: t).takeWhile (fun c => c != '\n') ≠ [] := by simp [hc]
        rw [ReadNGramHeaderLoop, hd, hg]
        simp only [hline, if_false]

theorem sectionMarker_no_newline (k : Nat) : '\n' ∉ sectionMarker k := by
  intro hm
  simp only [sectionMarker, List.mem_cons, List.mem_append] at hm
  rcases hm with h | h | h
  · revert h; decide
  · exact not_isDigit_of_mem (decimal_isDigit k) (by decide) h
  · revert h; decide

theorem ReadNGramHeader_ok_iff (inp : List Char) (k : Nat) (rest : List Char) :
    ReadNGramHeader inp k = some (.ok rest) ↔
      getline (inp.dropWhile (fun c => c == '\n')) = some (sectionMarker k, rest) := by
  rw [ReadNGramHeader, ReadNGramHeaderLoop_eq _ _ (Nat.lt_succ_self _)]
  cases hg : getline (inp.dropWhile (fun c => c == '\n')) with
  | none => simp
  | some p =>
    obtain ⟨line, r⟩ := p
    simp only
    by_cases hl : line = sectionMarker k
    · subst hl
      simp [sectionMarker]
    · have hl2 : line ≠ '\\' :: (decimal k ++ "-grams:".toList) := hl
      simp only [hl2, ne_eq, not_false_eq_true, if_true, Option.some.injEq, Prod.mk.injEq]
      constructor
      · intro h; exact Except.noConfusion h
      · intro h; exact absurd h.1 hl

theorem dropWhile_newlines (n : Nat) (x : List Char) :
    (List.replicate n '\n' ++ x).dropWhile (fun c => c == '\n')
      = x.dropWhile (fun c => c == '\n') :=
  List.dropWhile_append_of_pos (by
    intro a ha
    rw [List.eq_of_mem_replicate ha]
    rfl)

theorem takeWhile_newlines (inp : List Char) :
    inp.takeWhile (fun c => c == '\n')
      = List.replicate (inp.takeWhile (fun c => c == '\n')).length '\n' :=
  List.eq_replicate_of_mem (fun b hb => by
    have := List.mem_takeWhile_imp hb
    simpa using this)

/-! ## The output writer -/

theorem ReserveForCountsLoop_eq : ∀ (n : Nat) (f : OStream),
    ReserveForCountsLoop n f = f.write (List.replicate n '\n')
  | 0, f => by simp [ReserveForCountsLoop, OStream.write_nil]
  | n + 1, f => by
    rw [ReserveForCountsLoop, ReserveForCountsLoop_eq n, OStream.write_write]
    rfl

theorem headerText_length (number : List Nat) :
    (headerText number).length = (countLines 1 number).length + 9 := by
  simp [headerText]

theorem countLines_length_le : ∀ {r p : List Nat},
    List.Forall₂ (fun a b => (decimal a).length ≤ (decimal b).length) r p →
    ∀ first : Nat, (countLines first r).length ≤ (countLines first p).length := by
  intro r p h
  induction h with
  | nil => intro first; exact Nat.le_refl _
  | cons hab _ ih =>
    intro first
    have := ih (first + 1)
    simp only [countLines, countLine, List.length_append, List.length_cons]
    omega

/-! ## Further lemmas on the codec and on `Finish` -/

/-- A header in the written format, followed by any input: `ReadCounts` returns
the ledger and leaves exactly what follows the header. -/
theorem ReadCounts_headerText (number : List Nat) (hlen : number.length < 4294967296)
    (hcounts : ∀ c ∈ number, c < 4294967296) (tail : List Char) :
    ReadCounts (headerText number ++ tail) = some (.ok (number, tail)) := by
  have e : headerText number ++ tail
      = "\n\\data\\\n".toList ++ (unlines (countLineList 1 number) ++ '\n' :: tail) := by
    rw [headerText, countLines_eq_unlines]
    simp
  have hacc := countLineList_accepted number 0 (by omega) hcounts
  have hfuel : (countLineList 1 number).length
      < (unlines (countLineList 1 number) ++ '\n' :: tail).length + 1 := by
    have := unlines_length_ge (countLineList 1 number)
    simp only [List.length_append, List.length_cons]
    omega
  rw [e, ReadCounts_preamble, ReadCountsLoop_lines _ number [] _ tail hacc hfuel]
  simp

theorem OStream.seekp_zero_write (f : OStream) (x : List Char) :
    (f.seekp 0).write x = ⟨x ++ f.content.drop x.length, x.length⟩ := by
  simp [OStream.seekp, OStream.write]

/-- What `Finish` does, for a ledger of fewer than `2^32` entries: the line
`\end\` is written at the put position, then the header is written over the
sink from offset 0. -/
theorem Finish_eq (w : OutputLM) (hlen : w.counts_.length < 4294967296) :
    w.Finish = some ⟨⟨headerText w.counts_
        ++ (w.file_.write "\\end\\\n".toList).content.drop (headerText w.counts_).length,
      (headerText w.counts_).length⟩, w.fast_counter_, w.counts_⟩ := by
  rw [OutputLM.Finish, WriteCounts_eq _ _ hlen, OStream.seekp_zero_write]
  rfl

theorem Finish_none (w : OutputLM) (hlen : 4294967296 ≤ w.counts_.length) :
    w.Finish = none := by
  rw [OutputLM.Finish, WriteCounts_none _ _ hlen]
  rfl

theorem WriteCounts_empty_content (number : List Nat) (header : OStream)
    (h : WriteCounts OStream.empty number = some header) :
    number.length < 4294967296 ∧ header = ⟨headerText number, (headerText number).length⟩ := by
  have hlen : number.length < 4294967296 := by
    by_contra hc
    rw [WriteCounts_none _ _ (by omega)] at h
    exact Option.noConfusion h
  refine ⟨hlen, ?_⟩
  rw [WriteCounts_eq _ _ hlen] at h
  simp only [Option.some.injEq] at h
  rw [← h]
  simp [OStream.write, OStream.empty]

theorem SizeNeededForCounts_some {number : List Nat} {n : Nat}
    (h : SizeNeededForCounts number = some n) :
    number.length < 4294967296 ∧ n = (headerText number).length := by
  have hlen : number.length < 4294967296 := by
    by_contra hc
    rw [SizeNeededForCounts, WriteCounts_none _ _ (by omega)] at h
    exact Option.noConfusion h
  refine ⟨hlen, ?_⟩
  rw [SizeNeededForCounts_eq _ hlen] at h
  simp only [Option.some.injEq] at h
  exact h.symm

theorem countLines_length_mono : ∀ {r p : List Nat},
    List.Forall₂ (fun a b => a ≤ b) r p →
    ∀ first : Nat, (countLines first r).length ≤ (countLines first p).length := by
  intro r p h
  induction h with
  | nil => intro first; exact Nat.le_refl _
  | cons hab _ ih =>
    intro first
    have h1 := ih (first + 1)
    have h2 := decimal_length_mono hab
    simp only [countLines, countLine, List.length_append, List.length_cons]
    omega

/-! ## Calls on the writer -/

theorem EndLength_eq (w : OutputLM) (k : Nat) (hk : 1 ≤ k) (hk32 : k < 4294967296) :
    w.EndLength k = some ⟨w.file_.write ['\n'], w.fast_counter_,
      (if k > w.counts_.length then w.counts_ ++ List.replicate (k - w.counts_.length) 0
        else w.counts_).set (k - 1) w.fast_counter_⟩ := by
  have hidx : (k + 4294967295) % 4294967296 = k - 1 := by omega
  have hin : k - 1 < (if k > w.counts_.length then
      w.counts_ ++ List.replicate (k - w.counts_.length) 0 else w.counts_).length := by
    split_ifs with h
    · simp only [List.length_append, List.length_replicate]; omega
    · omega
  simp only [OutputLM.EndLength, hidx]
  rw [if_pos hin]

theorem EndLength_counts_length (w w1 : OutputLM) (k : Nat) (hk32 : k < 4294967296)
    (hlen : w.counts_.length < 4294967296) (h : w.EndLength k = some w1) :
    w1.counts_.length < 4294967296 := by
  simp only [OutputLM.EndLength] at h
  split_ifs at h with h1 h2 h2
  · simp only [Option.some.injEq] at h
    rw [← h]
    simp only [List.length_set, List.length_append, List.length_replicate]
    omega
  · simp only [Option.some.injEq] at h
    rw [← h]
    simp only [List.length_set]
    exact hlen

/-- No call is refused: from a writer whose ledger has fewer than `2^32`
entries, every sequence of calls whose `EndLength` arguments are at least 1
runs to its end. -/
theorem run_some : ∀ (calls : List Call) (w : OutputLM),
    w.counts_.length < 4294967296 →
    (∀ k, Call.EndLength k ∈ calls → 1 ≤ k ∧ k < 4294967296) →
    ∃ w1, w.run calls = some w1 ∧ w1.counts_.length < 4294967296 := by
  intro calls
  induction calls with
  | nil => intro w hlen _; exact ⟨w, rfl, hlen⟩
  | cons c cs ih =>
    intro w hlen hk
    have hk2 : ∀ k, Call.EndLength k ∈ cs → 1 ≤ k ∧ k < 4294967296 :=
      fun k hm => hk k (List.mem_cons_of_mem _ hm)
    cases c with
    | ReserveForCounts reserve =>
      exact ih (w.ReserveForCounts reserve) hlen hk2
    | BeginLength length =>
      exact ih (w.BeginLength length) hlen hk2
    | EndLength length =>
      obtain ⟨h1, h2⟩ := hk length (List.mem_cons_self _ _)
      have he := EndLength_eq w length h1 h2
      have hl := EndLength_counts_length w _ length h2 hlen he
      obtain ⟨w1, hw1, hl1⟩ := ih _ hl hk2
      refine ⟨w1, ?_, hl1⟩
      simp only [OutputLM.run, OutputLM.call, he]
      exact hw1
    | Finish =>
      obtain ⟨wf, hf, hcf⟩ : ∃ wf, w.Finish = some wf ∧ wf.counts_ = w.counts_ :=
        ⟨_, Finish_eq w hlen, rfl⟩
      obtain ⟨w1, hw1, hl1⟩ := ih wf (by rw [hcf]; exact hlen) hk2
      refine ⟨w1, ?_, hl1⟩
      simp only [OutputLM.run, OutputLM.call, hf]
      exact hw1

theorem BeginLength_file (w : OutputLM) (k : Nat) :
    (w.BeginLength k).file_ = w.file_.write (sectionMarker k ++ ['\n']) := by
  simp only [OutputLM.BeginLength, OStream.write_write, sectionMarker]
  simp

theorem sectionMarker_injective {k j : Nat} (h : sectionMarker k = sectionMarker j) :
    k = j := by
  simp only [sectionMarker, List.cons.injEq, true_and] at h
  exact decimal_injective (List.append_cancel_right h)

theorem sectionMarker_dropWhile (k : Nat) (rest : List Char) :
    (sectionMarker k ++ rest).dropWhile (fun c => c == '\n') = sectionMarker k ++ rest := by
  simp [sectionMarker]

/-- After any number of empty lines, the marker line of length `k` is what
`ReadNGramHeader(k)` accepts; the unread input starts after that line. -/
theorem ReadNGramHeader_marker (m k : Nat) (rest : List Char) :
    ReadNGramHeader (List.replicate m '\n' ++ (sectionMarker k ++ '\n' :: rest)) k
      = some (.ok rest) := by
  rw [ReadNGramHeader_ok_iff, dropWhile_newlines, sectionMarker_dropWhile]
  exact getline_line (sectionMarker_no_newline k) rest

/-! ## The destinations of the router -/

/-- The loop of the router in closed form: it returns the writers for the
indices left when every one of their names can be opened, and otherwise ends in
the exception of the first `open` that fails. -/
theorem MultipleVocabMultipleOutputFilterLoop_eq (canOpen : List Char → Bool)
    (pfx : List Char) (uninitialised : Nat → Nat)
    (sentence_count : Nat) (hN : sentence_count < 4294967296) :
    ∀ (d i fuel : Nat) (files_ : List (List Char × OutputLM)),
      i + d = sentence_count → d < fuel →
      MultipleVocabMultipleOutputFilterLoop canOpen pfx uninitialised sentence_count
          fuel i files_
        = if (List.range' i d).all (fun j => canOpen (pfx ++ decimal j)) = true then
            some (.ok (files_ ++ (List.range' i d).map
              (fun j => (pfx ++ decimal j, OutputLM.create (uninitialised j)))))
          else some (.error .ios_failure) := by
  intro d
  induction d with
  | zero =>
    intro i fuel files_ hi hfuel
    obtain ⟨f, rfl⟩ : ∃ f, fuel = f + 1 := ⟨fuel - 1, by omega⟩
    have : ¬ i < sentence_count := by omega
    simp [MultipleVocabMultipleOutputFilterLoop, this]
  | succ d ih =>
    intro i fuel files_ hi hfuel
    obtain ⟨f, rfl⟩ : ∃ f, fuel = f + 1 := ⟨fuel - 1, by omega⟩
    have hlt : i < sentence_count := by omega
    have hmod : (i + 1) % 4294967296 = i + 1 := Nat.mod_eq_of_lt (by omega)
    rw [MultipleVocabMultipleOutputFilterLoop, if_pos hlt]
    by_cases hopen : canOpen (pfx ++ decimal i) = true
    · simp only [OutputLM.construct, hopen, if_true, hmod]
      rw [ih (i + 1) f _ (by omega) (by omega)]
      simp [List.range'_succ, hopen]
    · simp only [OutputLM.construct, hopen, if_false]
      simp [List.range'_succ, hopen]

theorem MultipleVocabMultipleOutputFilter_create_eq {Map : Type}
    (canOpen : List Char → Bool) (vocabs : Map)
    (sentence_count : Nat) (pfx : List Char) (uninitialised : Nat → Nat)
    (hN : sentence_count < 4294967296) :
    MultipleVocabMultipleOutputFilter.create canOpen vocabs sentence_count pfx uninitialised
      = if (List.range sentence_count).all (fun j => canOpen (pfx ++ decimal j)) = true then
          some (.ok ⟨vocabs, (List.range sentence_count).map
            (fun j => (pfx ++ decimal j, OutputLM.create (uninitialised j)))⟩)
        else some (.error .ios_failure) := by
  rw [MultipleVocabMultipleOutputFilter.create,
    MultipleVocabMultipleOutputFilterLoop_eq canOpen pfx uninitialised sentence_count hN
      sentence_count 0 _ [] (by omega) (by omega), List.range_eq_range']
  split_ifs <;> simp

theorem MultipleVocabMultipleOutputFilter_create_ok {Map : Type}
    (canOpen : List Char → Bool) (vocabs : Map)
    (sentence_count : Nat) (pfx : List Char) (uninitialised : Nat → Nat)
    (hN : sentence_count < 4294967296)
    (hopen : ∀ i, i < sentence_count → canOpen (pfx ++ decimal i) = true) :
    MultipleVocabMultipleOutputFilter.create canOpen vocabs sentence_count pfx uninitialised
      = some (.ok ⟨vocabs, (List.range sentence_count).map
          (fun j => (pfx ++ decimal j, OutputLM.create (uninitialised j)))⟩) := by
  rw [MultipleVocabMultipleOutputFilter_create_eq _ _ _ _ _ hN, if_pos]
  rw [List.all_eq_true]
  intro j hj
  exact hopen j (List.mem_range.mp hj)

theorem MultipleVocabMultipleOutputFilter_create_error {Map : Type}
    (canOpen : List Char → Bool) (vocabs : Map)
    (sentence_count : Nat) (pfx : List Char) (uninitialised : Nat → Nat)
    (hN : sentence_count < 4294967296) (i : Nat) (hi : i < sentence_count)
    (hclosed : canOpen (pfx ++ decimal i) = false) :
    MultipleVocabMultipleOutputFilter.create canOpen vocabs sentence_count pfx uninitialised
      = some (.error .ios_failure) := by
  rw [MultipleVocabMultipleOutputFilter_create_eq _ _ _ _ _ hN, if_neg]
  rw [List.all_eq_true]
  intro h
  have := h i (List.mem_range.mpr hi)
  rw [hclosed] at this
  exact Bool.noConfusion this

/-- When the constructor of the router returns, every name could be opened and
the router is the one of the closed form. -/
theorem MultipleVocabMultipleOutputFilter_create_ok_inv {Map : Type}
    (canOpen : List Char → Bool) (vocabs : Map)
    (sentence_count : Nat) (pfx : List Char) (uninitialised : Nat → Nat)
    (hN : sentence_count < 4294967296) (f : MultipleVocabMultipleOutputFilter Map)
    (h : MultipleVocabMultipleOutputFilter.create canOpen vocabs sentence_count pfx
      uninitialised = some (.ok f)) :
    (∀ i, i < sentence_count → canOpen (pfx ++ decimal i) = true) ∧
    f = ⟨vocabs, (List.range sentence_count).map
      (fun j => (pfx ++ decimal j, OutputLM.create (uninitialised j)))⟩ := by
  rw [MultipleVocabMultipleOutputFilter_create_eq _ _ _ _ _ hN] at h
  split_ifs at h with hall
  · simp only [Option.some.injEq, Except.ok.injEq] at h
    refine ⟨?_, h.symm⟩
    rw [List.all_eq_true] at hall
    intro i hi
    exact hall i (List.mem_range.mpr hi)
  · simp at h

theorem name_injective (pfx : List Char) {i j : Nat}
    (h : pfx ++ decimal i = pfx ++ decimal j) : i = j :=
  decimal_injective (List.append_cancel_left h)

/-! ## Tokens of a vocabulary input -/

theorem tokens_nil : tokens [] = [] := rfl

theorem tokens_cons_space {c : Char} (hc : isspace c = true) (cs : List Char) :
    tokens (c :: cs) = tokens cs := by
  simp [tokens, List.splitOnP_cons, hc]

theorem tokens_dropWhile : ∀ inp : List Char, tokens (inp.dropWhile isspace) = tokens inp
  | [] => rfl
  | c :: cs => by
    by_cases hc : isspace c = true
    · rw [List.dropWhile_cons_of_pos hc, tokens_cons_space hc, tokens_dropWhile cs]
    · rw [List.dropWhile_cons_of_neg hc]

theorem tokens_word {word rest : List Char} (hne : word ≠ [])
    (hword : ∀ x ∈ word, isspace x = false)
    (hrest : ∀ c ∈ rest.head?, isspace c = true) :
    tokens (word ++ rest) = word :: tokens rest := by
  have hw : ∀ x ∈ word, ¬ (isspace x = true) := fun x hx => by simp [hword x hx]
  have hkeep : (!word.isEmpty) = true := by
    cases word with
    | nil => exact absurd rfl hne
    | cons a t => rfl
  cases rest with
  | nil =>
    rw [List.append_nil, tokens, List.splitOnP_eq_single isspace word hw]
    simp [hkeep, tokens]
  | cons sep as =>
    have hsep : isspace sep = true := hrest sep (by simp)
    rw [tokens, List.splitOnP_first isspace word hw sep hsep, tokens_cons_space hsep]
    simp only [List.filter_cons, hkeep, if_true]
    rfl

theorem extractWord_none {inp : List Char} (h : extractWord inp = none) : tokens inp = [] := by
  rw [← tokens_dropWhile]
  unfold extractWord at h
  cases hd : inp.dropWhile isspace with
  | nil => rfl
  | cons c cs => rw [hd] at h; exact Option.noConfusion h

theorem extractWord_some {inp word rest : List Char}
    (h : extractWord inp = some (word, rest)) :
    tokens inp = word :: tokens rest ∧ rest.length < inp.length := by
  unfold extractWord at h
  cases hd : inp.dropWhile isspace with
  | nil => rw [hd] at h; exact Option.noConfusion h
  | cons c cs =>
    rw [hd] at h
    simp only [Option.some.injEq, Prod.mk.injEq] at h
    obtain ⟨hw, hr⟩ := h
    have hc : isspace c = false := by
      have := List.head?_dropWhile_not isspace inp
      rw [hd] at this
      simpa using this
    have hsplit := List.takeWhile_append_dropWhile (fun x => !isspace x) (c :: cs)
    rw [hw, hr] at hsplit
    have hne : word ≠ [] := by
      rw [← hw]
      simp [hc]
    have hword : ∀ x ∈ word, isspace x = false := by
      intro x hx
      rw [← hw] at hx
      have := List.mem_takeWhile_imp hx
      simpa using this
    have hrest : ∀ x ∈ rest.head?, isspace x = true := by
      intro x hx
      have := List.head?_dropWhile_not (fun x => !isspace x) (c :: cs)
      rw [hr] at this
      cases rest with
      | nil => simp at hx
      | cons a t =>
        simp only [List.head?_cons, Option.mem_def, Option.some.injEq] at hx
        subst hx
        simpa using this
    constructor
    · rw [← tokens_dropWhile, hd, ← hsplit]
      exact tokens_word hne hword hrest
    · have h1 : (inp.dropWhile isspace).length ≤ inp.length :=
        (List.dropWhile_sublist isspace).length_le
      have h2 : 0 < word.length := List.length_pos.mpr hne
      have h3 : (c :: cs).length = word.length + rest.length := by
        rw [← hsplit, List.length_append]
      rw [hd] at h1
      omega

theorem SingleVocabFilterLoop_eq : ∀ (fuel : Nat) (inp : List Char) (f : SingleVocabFilter),
    inp.length < fuel →
    SingleVocabFilterLoop fuel inp f
      = some ((tokens inp).foldl SingleVocabFilter.addWord f) := by
  intro fuel
  induction fuel with
  | zero => intro inp f h; omega
  | succ n ih =>
    intro inp f hlen
    rw [SingleVocabFilterLoop]
    cases he : extractWord inp with
    | none =>
      rw [extractWord_none he]
      rfl
    | some p =>
      obtain ⟨word, rest⟩ := p
      obtain ⟨ht, hl⟩ := extractWord_some he
      simp only
      rw [ht, List.foldl_cons, SingleVocabFilter.addWord]
      split_ifs
      · exact ih _ _ (by omega)
      · exact ih _ _ (by omega)

theorem addWord_fold_invariant : ∀ (ts : List (List Char)) (f : SingleVocabFilter),
    f.words_ = f.backing_.toFinset → f.backing_.Nodup →
    (ts.foldl SingleVocabFilter.addWord f).words_
        = (ts.foldl SingleVocabFilter.addWord f).backing_.toFinset ∧
      (ts.foldl SingleVocabFilter.addWord f).backing_.Nodup ∧
      (ts.foldl SingleVocabFilter.addWord f).words_ = f.words_ ∪ ts.toFinset ∧
      (ts.foldl SingleVocabFilter.addWord f).backing_
        = List.eraseDups.loop ts f.backing_.reverse := by
  intro ts
  induction ts with
  | nil =>
    intro f hw hn
    simp [hw, hn, List.eraseDups.loop]
  | cons t ts ih =>
    intro f hw hn
    rw [List.foldl_cons]
    by_cases hmem : t ∈ f.words_
    · have hstep : f.addWord t = f := by simp [SingleVocabFilter.addWord, hmem]
      have helem : f.backing_.reverse.elem t = true := by
        rw [hw] at hmem
        simpa using hmem
      obtain ⟨h1, h2, h3, h4⟩ := ih f hw hn
      rw [hstep]
      refine ⟨h1, h2, ?_, ?_⟩
      · rw [h3, List.toFinset_cons, Finset.union_insert, Finset.insert_eq_of_mem]
        exact Finset.mem_union_left _ hmem
      · rw [h4, List.eraseDups.loop, helem]
    · have hstep : f.addWord t = ⟨insert t f.words_, f.backing_ ++ [t]⟩ := by
        simp [SingleVocabFilter.addWord, hmem]
      have hnot : t ∉ f.backing_ := by
        rw [hw] at hmem
        simpa using hmem
      have helem : f.backing_.reverse.elem t = false := by
        simpa using hnot
      have hw2 : insert t f.words_ = (f.backing_ ++ [t]).toFinset := by
        rw [hw]
        ext x
        simp [or_comm]
      have hn2 : (f.backing_ ++ [t]).Nodup := by
        rw [List.nodup_append]
        refine ⟨hn, List.nodup_singleton t, ?_⟩
        intro a ha hb
        rw [List.mem_singleton] at hb
        exact hnot (hb ▸ ha)
      obtain ⟨h1, h2, h3, h4⟩ := ih ⟨insert t f.words_, f.backing_ ++ [t]⟩ hw2 hn2
      rw [hstep]
      refine ⟨h1, h2, ?_, ?_⟩
      · rw [h3]
        ext x
        simp [or_assoc, or_comm]
      · rw [h4, List.eraseDups.loop, helem]
        simp

/-! ## A whole run of the writer, and reading it back -/

theorem AddNGram_fold : ∀ (records : List (List Char)) (w : OutputLM),
    records.foldl OutputLM.AddNGram w
      = ⟨w.file_.write (unlines records), w.fast_counter_ + records.length, w.counts_⟩
  | [], w => by simp [unlines, OStream.write_nil]
  | r :: rs, w => by
    rw [List.foldl_cons, AddNGram_fold rs]
    simp only [OutputLM.AddNGram, OStream.write_write, unlines, List.length_cons]
    have e1 : r ++ ['\n'] ++ unlines rs = r ++ '\n' :: unlines rs := by simp
    have e2 : w.fast_counter_ + 1 + rs.length = w.fast_counter_ + (rs.length + 1) := by omega
    rw [e1, e2]

theorem set_last_of_grown (l : List Nat) (v : Nat) :
    (l ++ List.replicate 1 0).set l.length v = l ++ [v] := by
  simp

theorem writeSection_eq (w : OutputLM) (k : Nat) (records : List (List Char))
    (hk : 1 ≤ k) (hk32 : k < 4294967296) (hcounts : w.counts_.length + 1 = k) :
    writeSection w k records
      = some ⟨w.file_.write (sectionText k records), records.length,
          w.counts_ ++ [records.length]⟩ := by
  rw [writeSection, AddNGram_fold, EndLength_eq _ _ hk hk32]
  have hgrow : k > w.counts_.length := by omega
  have hone : k - w.counts_.length = 1 := by omega
  have hidx : k - 1 = w.counts_.length := by omega
  simp only [OutputLM.BeginLength, OStream.write_write, hgrow, if_true, hone, hidx,
    set_last_of_grown, Nat.zero_add, sectionText, sectionMarker]
  congr 3
  simp

theorem writeSections_eq : ∀ (ss : List (List (List Char))) (k : Nat) (w : OutputLM),
    1 ≤ k → k + ss.length ≤ 4294967296 → w.counts_.length + 1 = k →
    ∃ fc, writeSections w k ss
      = some ⟨w.file_.write (bodyText k ss), fc, w.counts_ ++ ss.map List.length⟩
  | [], k, w, _, _, _ => ⟨w.fast_counter_, by simp [writeSections, bodyText, OStream.write_nil]⟩
  | s :: ss, k, w, hk, hlen, hc => by
    simp only [List.length_cons] at hlen
    have h1 := writeSection_eq w k s hk (by omega) hc
    obtain ⟨fc, h2⟩ := writeSections_eq ss (k + 1)
      ⟨w.file_.write (sectionText k s), s.length, w.counts_ ++ [s.length]⟩
      (by omega) (by omega) (by simp; omega)
    refine ⟨fc, ?_⟩
    simp only [writeSections, h1, h2, OStream.write_write, bodyText, List.map_cons,
      List.append_assoc, List.singleton_append]

/-- The sink and the ledger after a whole run of a fresh writer over fewer than
`2^32` sections. -/
theorem writeModel_eq (uninitialised : Nat) (R : Int) (ss : List (List (List Char)))
    (hlen : ss.length < 4294967296) :
    ∃ fc, writeModel uninitialised R ss
      = some ⟨⟨headerText (ss.map List.length)
          ++ (List.replicate R.toNat '\n' ++ bodyText 1 ss ++ "\\end\\\n".toList).drop
            (headerText (ss.map List.length)).length,
        (headerText (ss.map List.length)).length⟩, fc, ss.map List.length⟩ := by
  obtain ⟨fc, h⟩ := writeSections_eq ss 1 ((OutputLM.create uninitialised).ReserveForCounts R)
    (Nat.le_refl _) (by omega) rfl
  refine ⟨fc, ?_⟩
  have hfile : ((OutputLM.create uninitialised).ReserveForCounts R).file_
      = ⟨List.replicate R.toNat '\n', R.toNat⟩ := by
    simp [OutputLM.ReserveForCounts, OutputLM.create, ReserveForCountsLoop_eq, OStream.write,
      OStream.empty]
  have hcounts : ((OutputLM.create uninitialised).ReserveForCounts R).counts_ = [] := rfl
  rw [hfile, hcounts, List.nil_append] at h
  rw [writeModel, h]
  simp only
  rw [Finish_eq _ (by simpa using hlen)]
  simp only [OStream.write_write]
  rw [OStream.write_at_end _ _ (by simp)]
  simp

theorem readLines_unlines : ∀ (rs : List (List Char)) (rest : List Char),
    (∀ r ∈ rs, '\n' ∉ r) → readLines rs.length (unlines rs ++ rest) = some (rs, rest)
  | [], rest, _ => by simp [readLines, unlines]
  | r :: rs, rest, h => by
    have hg : getline (unlines (r :: rs) ++ rest) = some (r, unlines rs ++ rest) := by
      simp only [unlines, List.append_assoc, List.cons_append]
      exact getline_line (h r (by simp)) _
    simp only [List.length_cons, readLines, hg,
      readLines_unlines rs rest (fun x hx => h x (by simp [hx]))]

theorem readSection_text (m k : Nat) (s : List (List Char)) (rest : List Char)
    (h : ∀ r ∈ s, '\n' ∉ r) :
    readSection (List.replicate m '\n' ++ (sectionText k s ++ rest)) k s.length
      = some (s, rest) := by
  have e : sectionText k s ++ rest
      = sectionMarker k ++ '\n' :: (unlines s ++ '\n' :: rest) := by
    simp [sectionText]
  have hg : getline ('\n' :: rest) = some ([], rest) := getline_line (l := []) (by simp) rest
  simp only [readSection, e, ReadNGramHeader_marker, readLines_unlines s _ h, hg]

theorem readSections_text : ∀ (ss : List (List (List Char))) (k m : Nat) (rest : List Char),
    (∀ s ∈ ss, ∀ r ∈ s, '\n' ∉ r) → (ss = [] → m = 0) →
    readSections k (ss.map List.length) (List.replicate m '\n' ++ (bodyText k ss ++ rest))
      = some (ss, rest)
  | [], k, m, rest, _, hm => by
    rw [hm rfl]
    simp [readSections, bodyText]
  | s :: ss, k, m, rest, h, _ => by
    have h1 := readSection_text m k s (bodyText (k + 1) ss ++ rest) (h s (by simp))
    have h2 := readSections_text ss (k + 1) 0 rest (fun x hx => h x (by simp [hx]))
      (fun _ => rfl)
    simp only [List.replicate_zero, List.nil_append] at h2
    simp only [List.map_cons, readSections, bodyText, List.append_assoc, h1, h2]

theorem ReadCountsLoop_count_overflow (fuel : Nat) (rest : List Char) :
    ReadCountsLoop (fuel + 1) ("ngram 1=4294967296".toList ++ '\n' :: rest) []
      = some (.error .bad_lexical_cast) := by
  rw [ReadCountsLoop, getline_line (by decide) rest]
  rfl

theorem readModel_of_ReadCounts_error {inp : List Char} {e : Failure}
    (h : ReadCounts inp = some (.error e)) : readModel inp = none := by
  simp only [readModel, h]

/-! ## Claims about the count ledger codec -/

/-- C1, as stated, fails: the ledger with the single count `4294967296` is
written as `ngram 1=4294967296`, and reading those bytes back ends in the
`bad_lexical_cast` exception, because the count is parsed as an `unsigned int`.
No ledger is returned. -/
theorem C1_round_trip_fails_above_32_bits :
    WriteCounts OStream.empty [4294967296]
      = some ⟨"\n\\data\\\nngram 1=4294967296\n\n".toList, 28⟩ ∧
    ReadCounts "\n\\data\\\nngram 1=4294967296\n\n".toList
      = some (.error .bad_lexical_cast) := by
  decide

/-- C1, amended: for every ledger with fewer than `2^32` entries, all of them
below `2^32` (the empty ledger included), `WriteCounts` on an empty stream
returns, and `ReadCounts` on exactly the bytes it produced succeeds and returns
a ledger equal to the original. -/
theorem C1_round_trip_32_bits (number : List Nat) (hlen : number.length < 4294967296)
    (hcounts : ∀ c ∈ number, c < 4294967296) :
    ∃ out rest, WriteCounts OStream.empty number = some out ∧
      ReadCounts out.content = some (.ok (number, rest)) := by
  refine ⟨OStream.empty.write (headerText number), [], WriteCounts_eq _ _ hlen, ?_⟩
  have hcontent : (OStream.empty.write (headerText number)).content = headerText number := by
    simp [OStream.write, OStream.empty]
  have h1 : getline (headerText number)
      = some ([], "\\data\\".toList ++ '\n' :: (countLines 1 number ++ ['\n'])) :=
    getline_line (l := []) (by simp) _
  have h2 : getline ("\\data\\".toList ++ '\n' :: (countLines 1 number ++ ['\n']))
      = some ("\\data\\".toList, countLines 1 number ++ ['\n']) :=
    getline_line (by decide) _
  have hacc := countLineList_accepted number 0 (by omega) hcounts
  have hloop := ReadCountsLoop_lines (countLineList 1 number) number []
    ((countLines 1 number ++ ['\n']).length + 1) [] hacc
    (by
      have := unlines_length_ge (countLineList 1 number)
      rw [← countLines_eq_unlines, countLineList_length] at this
      simp only [List.length_append, List.length_singleton, countLineList_length]
      omega)
  rw [← countLines_eq_unlines] at hloop
  rw [hcontent, ReadCounts, h1]
  simp only [ne_eq, not_true_eq_false, if_false, h2]
  rw [hloop]
  simp

/-- Witness for C1, amended, at the ledger `[2, 1]`. -/
theorem C1_round_trip_32_bits_witness :
    ∃ out rest, WriteCounts OStream.empty [2, 1] = some out ∧
      ReadCounts out.content = some (.ok ([2, 1], rest)) :=
  C1_round_trip_32_bits [2, 1] (by decide) (by decide)

/-- C2, as stated, fails: on a ledger of `2^32` entries the loop of
`WriteCounts` exits after no number of rounds (its `unsigned int` counter wraps
to `0` before it can reach the size), so `WriteCounts` emits no complete header
and `SizeNeededForCounts` returns no size. -/
theorem C2_no_header_for_2_pow_32_entries :
    (¬ ∃ fuel r, WriteCountsLoop (List.replicate 4294967296 0) fuel 0
        (OStream.empty.write "\n\\data\\\n".toList) = some r) ∧
    WriteCounts OStream.empty (List.replicate 4294967296 0) = none ∧
    SizeNeededForCounts (List.replicate 4294967296 0) = none := by
  have hlen : 4294967296 ≤ (List.replicate 4294967296 0).length := by
    rw [List.length_replicate]
  refine ⟨?_, WriteCounts_none _ _ hlen, ?_⟩
  · rintro ⟨fuel, r, h⟩
    rw [WriteCountsLoop_none_of_large _ hlen fuel 0 _ (by omega)] at h
    exact Option.noConfusion h
  · rw [SizeNeededForCounts, WriteCounts_none _ _ hlen]
    rfl

/-- C2, amended: for every ledger `number` with fewer than `2^32` entries,
`WriteCounts` returns and what it inserts into its stream, which on an empty
stream is the whole content, is exactly `headerText number`: one newline
byte, the marker line `\data\` and a newline byte, then for each index `i` in
order the bytes of `ngram `, `decimal (i+1)`, `=`, `decimal number[i]` and a
newline byte, then one final newline byte; and `SizeNeededForCounts number` is
the byte length of that output. -/
theorem C2_header_format (number : List Nat) (hlen : number.length < 4294967296) :
    (∀ out : OStream, WriteCounts out number = some (out.write (headerText number))) ∧
    WriteCounts OStream.empty number
      = some ⟨headerText number, (headerText number).length⟩ ∧
    headerText number
      = "\n".toList ++ "\\data\\\n".toList ++
        (List.flatten ((List.range number.length).map (fun i =>
          "ngram ".toList ++ decimal (i + 1) ++ "=".toList ++ decimal (number.getD i 0)
            ++ "\n".toList))) ++ "\n".toList ∧
    SizeNeededForCounts number = some (headerText number).length := by
  refine ⟨fun out => WriteCounts_eq out number hlen, ?_, ?_,
    SizeNeededForCounts_eq number hlen⟩
  · rw [WriteCounts_eq _ _ hlen]
    simp [OStream.write, OStream.empty]
  · have key : ∀ (cs : List Nat) (first : Nat), countLines first cs
        = List.flatten ((List.range cs.length).map (fun i =>
          "ngram ".toList ++ decimal (first + i) ++ "=".toList ++ decimal (cs.getD i 0)
            ++ "\n".toList)) := by
      intro cs
      induction cs with
      | nil => intro first; rfl
      | cons c cs ih =>
        intro first
        rw [List.length_cons, List.range_succ_eq_map, List.map_cons, List.flatten_cons,
          List.map_map, countLines, ih (first + 1)]
        simp [countLine, Function.comp_def, Nat.add_assoc, Nat.add_comm 1]
    rw [headerText, key number 1]
    simp only [List.append_assoc, List.cons_append, List.nil_append, String.toList,
      Nat.add_comm 1]

/-- Witness for C2, amended, at the ledger `[2, 1]`. -/
theorem C2_header_format_witness :
    (∀ out : OStream, WriteCounts out [2, 1] = some (out.write (headerText [2, 1]))) ∧
    WriteCounts OStream.empty [2, 1]
      = some ⟨headerText [2, 1], (headerText [2, 1]).length⟩ ∧
    headerText [2, 1]
      = "\n".toList ++ "\\data\\\n".toList ++
        (List.flatten ((List.range [2, 1].length).map (fun i =>
          "ngram ".toList ++ decimal (i + 1) ++ "=".toList ++ decimal ([2, 1].getD i 0)
            ++ "\n".toList))) ++ "\n".toList ∧
    SizeNeededForCounts [2, 1] = some (headerText [2, 1]).length :=
  C2_header_format [2, 1] (by decide)

/-- C3, as stated, fails: a first header line that declares the length
`4294967296`, which differs from `0 + 1`, does not end `ReadCounts` in a format
error of status 3 but in the `bad_lexical_cast` exception of the conversion to
`unsigned int`, which is no exit status at all. -/
theorem C3_overlong_length_is_no_format_error :
    ReadCounts "\n\\data\\\nngram 4294967296=1\n\n".toList = some (.error .bad_lexical_cast) ∧
    Failure.exitStatus .bad_lexical_cast ≠ some 3 := by
  decide

/-- C3, amended: while `ReadCounts` is reading header lines, a line
`ngram <n>=...` whose declared length converts to an `unsigned int` value `n`
other than (entries read so far) + 1 makes it fail with `errx(3, ...)`, unless
`n` is `0` and exactly `2^32 - 1` entries have been read; `ReadCounts` can only
succeed when the declared length of the `i`-th header line (from `i = 0`)
converts to `(i + 1) mod 2^32`, that is to `1, 2, ..., k` in that order for
`k < 2^32`; a header whose first line is `ngram 2=1` is rejected with status 3,
and so is a first line that declares the length `0`. -/
theorem C3_contiguous_lengths :
    (∀ (fuel : Nat) (inp rest lenText tail : List Char) (number : List Nat) (n : Nat),
      getline inp = some ("ngram ".toList ++ lenText ++ '=' :: tail, rest) →
      lexical_cast_unsigned_int lenText = .ok n →
      n ≠ number.length + 1 → ¬ (n = 0 ∧ number.length = 4294967295) →
      ReadCountsLoop (fuel + 1) inp number = some (.error (.errx 3))) ∧
    (∀ (inp rest : List Char) (number : List Nat),
      ReadCounts inp = some (.ok (number, rest)) →
      ∃ ls : List (List Char),
        inp = "\n\\data\\\n".toList ++ unlines ls ++ '\n' :: rest ∧
        ls.length = number.length ∧
        ∀ (i : Nat) (h : i < ls.length),
          lexical_cast_unsigned_int (lengthField ls[i]) = .ok ((i + 1) % 4294967296)) ∧
    (∀ tail : List Char,
      ReadCounts ("\n\\data\\\nngram 2=1\n".toList ++ tail) = some (.error (.errx 3))) ∧
    (∀ tail : List Char,
      ReadCounts ("\n\\data\\\nngram 0=1\n".toList ++ tail) = some (.error (.errx 3))) := by
  have step : ∀ (fuel : Nat) (inp rest lenText tail : List Char) (number : List Nat) (n : Nat),
      getline inp = some ("ngram ".toList ++ lenText ++ '=' :: tail, rest) →
      lexical_cast_unsigned_int lenText = .ok n →
      n ≠ number.length + 1 → ¬ (n = 0 ∧ number.length = 4294967295) →
      ReadCountsLoop (fuel + 1) inp number = some (.error (.errx 3)) := by
    intro fuel inp rest lenText tail number n hg hparse hne hsmall
    obtain ⟨h1, h2, h3, _⟩ := ngram_line_fields lenText tail (lexical_cast_ok_no_eq hparse).1
    have hlt := lexical_cast_lt hparse
    have hidx : (n + 4294967295) % 4294967296 ≠ number.length := by omega
    have hnil : "ngram ".toList ++ lenText ++ '=' :: tail ≠ [] := by simp
    simp only [lengthField] at h3
    simp only [ReadCountsLoop, hg, hnil, h1, h2, h3, hparse, hidx, if_false, if_true, ne_eq,
      not_true_eq_false, not_false_eq_true]
  refine ⟨step, ?_, ?_, ?_⟩
  · intro inp rest number h
    obtain ⟨rest2, hinp, hloop⟩ := ReadCounts_ok_inv h
    obtain ⟨ls, cs, hrest2, hres, hacc⟩ := ReadCountsLoop_ok _ _ _ _ _ hloop
    simp only [List.nil_append] at hres
    subst hres
    refine ⟨ls, ?_, AcceptedLines_length hacc, ?_⟩
    · rw [hinp, hrest2]; simp
    · intro i hi
      have := AcceptedLines_lengthField hacc i hi
      simpa using this
  · intro tail
    have e : "\n\\data\\\nngram 2=1\n".toList ++ tail
        = "\n\\data\\\n".toList ++ ("ngram 2=1".toList ++ '\n' :: tail) := rfl
    have hg : getline ("ngram 2=1".toList ++ '\n' :: tail)
        = some ("ngram ".toList ++ "2".toList ++ '=' :: "1".toList, tail) :=
      getline_line (by decide) tail
    rw [e, ReadCounts_preamble]
    exact step _ _ tail "2".toList "1".toList [] 2 hg (by decide) (by decide) (by decide)
  · intro tail
    have e : "\n\\data\\\nngram 0=1\n".toList ++ tail
        = "\n\\data\\\n".toList ++ ("ngram 0=1".toList ++ '\n' :: tail) := rfl
    have hg : getline ("ngram 0=1".toList ++ '\n' :: tail)
        = some ("ngram ".toList ++ "0".toList ++ '=' :: "1".toList, tail) :=
      getline_line (by decide) tail
    rw [e, ReadCounts_preamble]
    exact step _ _ tail "0".toList "1".toList [] 0 hg (by decide) (by decide) (by decide)

/-- Witness for C3, amended: the line `ngram 3=1` read after one entry, the
header with the lengths 1 and 2, and the two rejected first lines. -/
theorem C3_contiguous_lengths_witness :
    ReadCountsLoop 1 "ngram 3=1\n".toList [7] = some (.error (.errx 3)) ∧
    (∃ ls : List (List Char),
      "\n\\data\\\nngram 1=2\nngram 2=1\n\n".toList
        = "\n\\data\\\n".toList ++ unlines ls ++ '\n' :: [] ∧
      ls.length = [2, 1].length ∧
      ∀ (i : Nat) (h : i < ls.length),
        lexical_cast_unsigned_int (lengthField ls[i]) = .ok ((i + 1) % 4294967296)) ∧
    ReadCounts ("\n\\data\\\nngram 2=1\n".toList ++ []) = some (.error (.errx 3)) ∧
    ReadCounts ("\n\\data\\\nngram 0=1\n".toList ++ []) = some (.error (.errx 3)) :=
  ⟨C3_contiguous_lengths.1 0 "ngram 3=1\n".toList [] "3".toList "1".toList [7] 3
      (by decide) (by decide) (by decide) (by decide),
    C3_contiguous_lengths.2.1 "\n\\data\\\nngram 1=2\nngram 2=1\n\n".toList [] [2, 1]
      (by decide),
    C3_contiguous_lengths.2.2.1 [], C3_contiguous_lengths.2.2.2 []⟩

/-- C4: an input made of an empty first line, the line `\data\` and the header
lines `ngram 1=c_1`, ..., `ngram k=c_k` (any `k` below `2^32`, `k = 0` included,
all counts below `2^32`) that ends there, with or without the newline of its
last line, makes `ReadCounts` fail through `err(2, ...)`: the failure is the
truncated-input one of status 2, not a format error of status 3, and no ledger
is returned. -/
theorem C4_truncated_header (cs : List Nat) (hlen : cs.length < 4294967296)
    (hcounts : ∀ c ∈ cs, c < 4294967296) :
    ReadCounts ("\n\\data\\\n".toList ++ countLines 1 cs) = some (.error (.err 2)) ∧
    ReadCounts (("\n\\data\\\n".toList ++ countLines 1 cs).dropLast)
      = some (.error (.err 2)) ∧
    Failure.exitStatus (.err 2) = some 2 := by
  have hacc := countLineList_accepted cs 0 (by omega) hcounts
  simp only [Nat.zero_add] at hacc
  refine ⟨?_, ?_, rfl⟩
  · rw [ReadCounts_preamble, countLines_eq_unlines]
    exact ReadCountsLoop_truncated _ cs [] _ hacc
      (Nat.lt_succ_of_le (unlines_length_ge _))
  · rcases List.eq_nil_or_concat cs with e | ⟨cs1, c, e⟩
    · subst e
      decide
    · rw [List.concat_eq_append] at e
      subst e
      rw [countLineList_concat] at hacc
      have hnil : countLine (1 + cs1.length) c ≠ [] := by simp [countLine]
      have hdrop : ("\n\\data\\\n".toList ++ countLines 1 (cs1 ++ [c])).dropLast
          = "\n\\data\\\n".toList
            ++ (unlines (countLineList 1 cs1) ++ countLine (1 + cs1.length) c) := by
        rw [countLines_eq_unlines, countLineList_concat, unlines_concat, ← List.append_assoc,
          List.dropLast_concat]
      rw [hdrop, ReadCounts_preamble]
      refine ReadCountsLoop_truncated_last _ _ cs1 c [] _ hacc ?_
      have h1 := unlines_length_ge (countLineList 1 cs1)
      have h2 : 0 < (countLine (1 + cs1.length) c).length := List.length_pos.mpr hnil
      simp only [List.length_append]
      omega

/-- Witness for C4 at the counts `[2, 1]`. -/
theorem C4_truncated_header_witness :
    ReadCounts ("\n\\data\\\n".toList ++ countLines 1 [2, 1]) = some (.error (.err 2)) ∧
    ReadCounts (("\n\\data\\\n".toList ++ countLines 1 [2, 1]).dropLast)
      = some (.error (.err 2)) ∧
    Failure.exitStatus (.err 2) = some 2 :=
  C4_truncated_header [2, 1] (by decide) (by decide)

/-- C5: `ReadCounts` fails with a format error, exit status 3, whenever the
first input line is not empty (`errx(3, ...)`) and whenever the first line is
empty but the second line is not exactly `\data\` (`err(3, ...)`); when it
succeeds, the input was the two preamble lines, then non-empty `ngram ` lines,
then an empty line, the returned ledger has exactly one entry per `ngram` line,
the one its count field converts to, in input order, and the unread input
starts right after that first empty line. -/
theorem C5_preamble_mandatory :
    (∀ (inp line rest : List Char), getline inp = some (line, rest) → line ≠ [] →
      ReadCounts inp = some (.error (.errx 3))) ∧
    (∀ (inp rest line2 rest2 : List Char), getline inp = some ([], rest) →
      getline rest = some (line2, rest2) → line2 ≠ "\\data\\".toList →
      ReadCounts inp = some (.error (.err 3))) ∧
    Failure.exitStatus (.errx 3) = some 3 ∧ Failure.exitStatus (.err 3) = some 3 ∧
    (∀ (inp rest : List Char) (number : List Nat),
      ReadCounts inp = some (.ok (number, rest)) →
      ∃ ls : List (List Char),
        inp = "\n\\data\\\n".toList ++ unlines ls ++ '\n' :: rest ∧
        (∀ l ∈ ls, l ≠ [] ∧ '\n' ∉ l ∧ l.take 6 = "ngram ".toList) ∧
        List.Forall₂ (fun l c => lexical_cast_unsigned_int (countField l) = .ok c)
          ls number) := by
  refine ⟨?_, ?_, rfl, rfl, ?_⟩
  · intro inp line rest hg hne
    simp only [ReadCounts, hg, hne, ne_eq, not_false_eq_true, if_true]
  · intro inp rest line2 rest2 hg hg2 hne
    simp only [ReadCounts, hg, hg2, hne, ne_eq, not_true_eq_false, not_false_eq_true,
      if_true, if_false]
  · intro inp rest number h
    obtain ⟨rest2, hinp, hloop⟩ := ReadCounts_ok_inv h
    obtain ⟨ls, cs, hrest2, hres, hacc⟩ := ReadCountsLoop_ok _ _ _ _ _ hloop
    simp only [List.nil_append] at hres
    subst hres
    refine ⟨ls, ?_, AcceptedLines_lines hacc, AcceptedLines_countField hacc⟩
    rw [hinp, hrest2]; simp

/-- Witness for C5: a non-empty first line, a wrong second line, and the
header with the counts 2 and 1 followed by more input. -/
theorem C5_preamble_mandatory_witness :
    ReadCounts "x\n\\data\\\n\n".toList = some (.error (.errx 3)) ∧
    ReadCounts "\n\\data \n\n".toList = some (.error (.err 3)) ∧
    (∃ ls : List (List Char),
      "\n\\data\\\nngram 1=2\nngram 2=1\n\n\\1-grams:\n".toList
        = "\n\\data\\\n".toList ++ unlines ls ++ '\n' :: "\\1-grams:\n".toList ∧
      (∀ l ∈ ls, l ≠ [] ∧ '\n' ∉ l ∧ l.take 6 = "ngram ".toList) ∧
      List.Forall₂ (fun l c => lexical_cast_unsigned_int (countField l) = .ok c)
        ls [2, 1]) :=
  ⟨C5_preamble_mandatory.1 "x\n\\data\\\n\n".toList "x".toList "\\data\\\n\n".toList
      (by decide) (by decide),
    C5_preamble_mandatory.2.1 "\n\\data \n\n".toList "\\data \n\n".toList "\\data ".toList
      "\n".toList (by decide) (by decide) (by decide),
    C5_preamble_mandatory.2.2.2.2 "\n\\data\\\nngram 1=2\nngram 2=1\n\n\\1-grams:\n".toList
      "\\1-grams:\n".toList [2, 1] (by decide)⟩

/-! ## Claims about section framing -/

/-- C6: for every input and every expected length `k`, `ReadNGramHeader`
returns, and it succeeds, leaving `rest` unread, if and only if the input is
some number of empty lines followed by the line `sectionMarker k` (one
backslash, `decimal k`, `-grams:`) and then `rest`, the marker line ending in a
newline or at the end of the input; so on success it has consumed the leading
empty lines and the marker line and nothing more.  Every other input fails, with
`err(2, ...)` or `errx(3, ...)`, and an input of empty lines only, or of no
line, fails with `err(2, ...)`. -/
theorem C6_section_header (inp : List Char) (k : Nat) :
    (∀ rest : List Char, ReadNGramHeader inp k = some (.ok rest) ↔
      ∃ n : Nat, inp = List.replicate n '\n' ++ sectionMarker k ++ '\n' :: rest ∨
        (inp = List.replicate n '\n' ++ sectionMarker k ∧ rest = [])) ∧
    ((∃ rest, ReadNGramHeader inp k = some (.ok rest)) ∨
      ReadNGramHeader inp k = some (.error (.err 2)) ∨
      ReadNGramHeader inp k = some (.error (.errx 3))) ∧
    (∀ n : Nat, ReadNGramHeader (List.replicate n '\n') k = some (.error (.err 2))) := by
  refine ⟨?_, ?_, ?_⟩
  · intro rest
    rw [ReadNGramHeader_ok_iff]
    have hhead : (sectionMarker k).dropWhile (fun c => c == '\n') = sectionMarker k := by
      simp [sectionMarker]
    constructor
    · intro hg
      have hsplit := List.takeWhile_append_dropWhile (fun c : Char => c == '\n') inp
      rw [takeWhile_newlines] at hsplit
      obtain ⟨m, hm⟩ : ∃ m : Nat, inp
          = List.replicate m '\n' ++ inp.dropWhile (fun c => c == '\n') := ⟨_, hsplit.symm⟩
      refine ⟨m, ?_⟩
      rcases (getline_some hg).2 with e | ⟨e, hr, _⟩
      · left
        rw [e] at hm
        rw [List.append_assoc]
        exact hm
      · right
        rw [e] at hm
        exact ⟨hm, hr⟩
    · rintro ⟨n, e | ⟨e, hr⟩⟩
      · have hd : (sectionMarker k ++ '\n' :: rest).dropWhile (fun c => c == '\n')
            = sectionMarker k ++ '\n' :: rest := by
          simp [sectionMarker]
        rw [e, List.append_assoc, dropWhile_newlines, hd]
        exact getline_line (sectionMarker_no_newline k) rest
      · rw [e, hr, dropWhile_newlines, hhead]
        exact getline_last (sectionMarker_no_newline k) (by simp [sectionMarker])
  · rw [ReadNGramHeader, ReadNGramHeaderLoop_eq _ _ (Nat.lt_succ_self _)]
    cases getline (inp.dropWhile (fun c => c == '\n')) with
    | none => right; left; rfl
    | some p =>
      obtain ⟨line, r⟩ := p
      simp only
      by_cases hl : line = '\\' :: (decimal k ++ "-grams:".toList)
      · left
        exact ⟨r, by simp [hl]⟩
      · right; right
        simp only [ne_eq, hl, not_false_eq_true, if_true]
  · intro n
    have hd : (List.replicate n '\n').dropWhile (fun c => c == '\n') = [] := by
      simp
    rw [ReadNGramHeader, ReadNGramHeaderLoop_eq _ _ (Nat.lt_succ_self _), hd]
    rfl

/-- C7: `ReadEnd` succeeds, leaving `rest` unread, if and only if the very next
line of the input is exactly `\end\`, ended by a newline or by the end of the
input; at the end of the input it fails with `err(2, ...)`, on any other line
with `errx(3, ...)`, and a leading empty line is not skipped: it makes `ReadEnd`
fail, whatever follows. -/
theorem C7_end_marker (inp : List Char) :
    (∀ rest : List Char, ReadEnd inp = .ok rest ↔
      (inp = "\\end\\".toList ++ '\n' :: rest ∨ (inp = "\\end\\".toList ∧ rest = []))) ∧
    ReadEnd [] = .error (.err 2) ∧
    (∀ line rest : List Char, getline inp = some (line, rest) → line ≠ "\\end\\".toList →
      ReadEnd inp = .error (.errx 3)) ∧
    (∀ tail : List Char, ReadEnd ('\n' :: tail) = .error (.errx 3)) ∧
    (∀ tail : List Char, ReadNGramHeader ('\n' :: (sectionMarker 1 ++ '\n' :: tail)) 1
      = some (.ok tail)) := by
  refine ⟨?_, rfl, ?_, ?_, ?_⟩
  · intro rest
    constructor
    · intro h
      rw [ReadEnd] at h
      cases hg : getline inp with
      | none => rw [hg] at h; exact Except.noConfusion h
      | some p =>
        obtain ⟨line, r⟩ := p
        rw [hg] at h
        simp only at h
        by_cases hl : line = "\\end\\".toList
        · rw [if_neg (not_not.mpr hl)] at h
          simp only [Except.ok.injEq] at h
          subst hl h
          rcases (getline_some hg).2 with e | ⟨e, hr, _⟩
          · exact Or.inl e
          · exact Or.inr ⟨e, hr⟩
        · rw [if_pos hl] at h; exact Except.noConfusion h
    · rintro (e | ⟨e, hr⟩)
      · have hg : getline inp = some ("\\end\\".toList, rest) := by
          rw [e]; exact getline_line (by decide) rest
        simp [ReadEnd, hg]
      · subst e hr
        decide
  · intro line rest hg hne
    simp only [ReadEnd, hg, ne_eq, hne, not_false_eq_true, if_true]
  · intro tail
    have hg : getline ('\n' :: tail) = some ([], tail) := getline_line (l := []) (by simp) tail
    rw [ReadEnd, hg]
    rfl
  · intro tail
    rw [ReadNGramHeader_ok_iff]
    have hd : ('\n' :: (sectionMarker 1 ++ '\n' :: tail)).dropWhile (fun c => c == '\n')
        = sectionMarker 1 ++ '\n' :: tail := by
      rfl
    rw [hd]
    exact getline_line (sectionMarker_no_newline 1) tail

/-- Witness for C7: a line other than `\end\` at the head of the input. -/
theorem C7_end_marker_witness :
    ReadEnd "\\end\n".toList = .error (.errx 3) :=
  (C7_end_marker "\\end\n".toList).2.2.1 "\\end".toList [] (by decide) (by decide)

/-! ## Claims about the output writer -/

/-- C8, as stated, fails for a writer whose put position is not the end of the
sink: after `ReserveForCounts(12)` and `Finish` the position is 9, inside the 18
bytes of the sink, and `EndLength(1)` then writes its newline over the byte at
offset 9; the sink keeps its 18 bytes and nothing is appended. -/
theorem C8_newline_not_appended_after_finish :
    ((OutputLM.create 0).ReserveForCounts 12).Finish
      = some ⟨⟨"\n\\data\\\n\n\n\n\n\\end\\\n".toList, 9⟩, 0, []⟩ ∧
    OutputLM.EndLength ⟨⟨"\n\\data\\\n\n\n\n\n\\end\\\n".toList, 9⟩, 0, []⟩ 1
      = some ⟨⟨"\n\\data\\\n\n\n\n\n\\end\\\n".toList, 10⟩, 0, [0]⟩ := by
  decide

/-- C8, amended: for every writer state and every length `k >= 1` (an
`unsigned int`), `EndLength(k)` returns; afterwards the ledger `counts_` has size
`max (old size) k`, the index `k - 1` is in bounds and `counts_[k-1]` is the
counter `fast_counter_`, every other entry that existed before is unchanged,
every entry newly created by the growth other than index `k - 1` is `0`, the
counter itself is unchanged, and exactly one newline byte was written to the
sink at its put position, which appends it whenever that position is the end of
the sink. -/
theorem C8_end_length (w : OutputLM) (k : Nat) (hk : 1 ≤ k) (hk32 : k < 4294967296) :
    ∃ w', w.EndLength k = some w' ∧
      w'.counts_.length = max w.counts_.length k ∧
      k - 1 < w'.counts_.length ∧
      w'.counts_[k - 1]? = some w.fast_counter_ ∧
      (∀ i, i < w.counts_.length → i ≠ k - 1 → w'.counts_[i]? = w.counts_[i]?) ∧
      (∀ i, w.counts_.length ≤ i → i < k → i ≠ k - 1 → w'.counts_[i]? = some 0) ∧
      w'.fast_counter_ = w.fast_counter_ ∧
      w'.file_ = w.file_.write ['\n'] ∧
      (w.file_.pos = w.file_.content.length →
        w'.file_.content = w.file_.content ++ ['\n']) := by
  have hidx : (k + 4294967295) % 4294967296 = k - 1 := by omega
  by_cases hgrow : k > w.counts_.length
  · have hlen : (w.counts_ ++ List.replicate (k - w.counts_.length) 0).length = k := by
      simp only [List.length_append, List.length_replicate]; omega
    refine ⟨⟨w.file_.write ['\n'], w.fast_counter_,
      (w.counts_ ++ List.replicate (k - w.counts_.length) 0).set (k - 1) w.fast_counter_⟩,
      ?_, ?_, ?_, ?_, ?_, ?_, rfl, rfl, ?_⟩
    · simp only [OutputLM.EndLength, hgrow, if_true, hidx, hlen]
      rw [if_pos (by omega)]
    · simp only [List.length_set, hlen]; omega
    · simp only [List.length_set, hlen]; omega
    · rw [List.getElem?_set_self (by rw [hlen]; omega)]
    · intro i hi hne
      rw [List.getElem?_set_ne (Ne.symm hne), List.getElem?_append_left hi]
    · intro i hi hik hne
      rw [List.getElem?_set_ne (Ne.symm hne), List.getElem?_append_right hi,
        List.getElem?_replicate]
      rw [if_pos (by omega)]
    · intro hpos
      rw [OStream.write_at_end _ _ hpos]
  · refine ⟨⟨w.file_.write ['\n'], w.fast_counter_, w.counts_.set (k - 1) w.fast_counter_⟩,
      ?_, ?_, ?_, ?_, ?_, ?_, rfl, rfl, ?_⟩
    · simp only [OutputLM.EndLength, hgrow, if_false, hidx]
      rw [if_pos (by omega)]
    · simp only [List.length_set]; omega
    · simp only [List.length_set]; omega
    · rw [List.getElem?_set_self (by omega)]
    · intro i _ hne
      rw [List.getElem?_set_ne (Ne.symm hne)]
    · intro i hi hik _
      omega
    · intro hpos
      rw [OStream.write_at_end _ _ hpos]

/-- Witness for C8, amended: `EndLength(3)` on a writer with one ledger entry. -/
theorem C8_end_length_witness :
    ∃ w', OutputLM.EndLength ⟨⟨"ab".toList, 2⟩, 5, [4]⟩ 3 = some w' ∧
      w'.counts_.length = max [4].length 3 ∧
      3 - 1 < w'.counts_.length ∧
      w'.counts_[3 - 1]? = some 5 ∧
      (∀ i, i < [4].length → i ≠ 3 - 1 → w'.counts_[i]? = [4][i]?) ∧
      (∀ i, [4].length ≤ i → i < 3 → i ≠ 3 - 1 → w'.counts_[i]? = some 0) ∧
      w'.fast_counter_ = 5 ∧
      w'.file_ = OStream.write ⟨"ab".toList, 2⟩ ['\n'] ∧
      ((2 : Nat) = "ab".toList.length → w'.file_.content = "ab".toList ++ ['\n']) :=
  C8_end_length ⟨⟨"ab".toList, 2⟩, 5, [4]⟩ 3 (by decide) (by decide)

/-- C9: `ReserveForCounts(R)` as the first write to the sink writes exactly `R`
newline bytes; and if the sink holds those `R` bytes and then the body, with the
put position at its end, and the encoded header `WriteCounts(counts_)` has byte
length `H <= R`, then `Finish` returns and the sink holds, in order, the `H`
header bytes, `R - H` newline bytes, the body bytes unchanged, and the line
`\end\` with its newline; from offset `R` on, the sink is what it was before the
patch, and the patch does not change its length. -/
theorem C9_header_patch (uninitialised : Nat) (R : Int) (body : List Char) (w : OutputLM)
    (header : OStream)
    (hfile : w.file_ = ⟨List.replicate R.toNat '\n' ++ body, R.toNat + body.length⟩)
    (hheader : WriteCounts OStream.empty w.counts_ = some header)
    (hfit : (header.content.length : Int) ≤ R) :
    ((OutputLM.create uninitialised).ReserveForCounts R).file_
      = ⟨List.replicate R.toNat '\n', R.toNat⟩ ∧
    ∃ w', w.Finish = some w' ∧
      w'.file_.content
        = header.content ++ List.replicate (R.toNat - header.content.length) '\n'
          ++ body ++ "\\end\\\n".toList ∧
      w'.file_.content.drop R.toNat
        = (w.file_.write "\\end\\\n".toList).content.drop R.toNat ∧
      w'.file_.content.length = (w.file_.write "\\end\\\n".toList).content.length ∧
      w'.counts_ = w.counts_ ∧ w'.fast_counter_ = w.fast_counter_ := by
  constructor
  · simp [OutputLM.ReserveForCounts, OutputLM.create, ReserveForCountsLoop_eq, OStream.write,
      OStream.empty]
  · have hlen : w.counts_.length < 4294967296 := by
      by_contra hc
      rw [WriteCounts_none _ _ (by omega)] at hheader
      exact Option.noConfusion hheader
    rw [WriteCounts_eq _ _ hlen] at hheader
    have hcontent : header.content = headerText w.counts_ := by
      simp only [Option.some.injEq] at hheader
      rw [← hheader]
      simp [OStream.write, OStream.empty]
    rw [hcontent] at hfit ⊢
    have hH : (headerText w.counts_).length ≤ R.toNat := by omega
    have hbefore : (w.file_.write "\\end\\\n".toList).content
        = List.replicate R.toNat '\n' ++ body ++ "\\end\\\n".toList := by
      rw [OStream.write_at_end _ _ (by rw [hfile]; simp), hfile]
    have hrep : List.replicate R.toNat '\n'
        = List.replicate (headerText w.counts_).length '\n'
          ++ List.replicate (R.toNat - (headerText w.counts_).length) '\n' := by
      rw [← List.replicate_add]
      congr 1
      omega
    have hafter : (((w.file_.write "\\end\\\n".toList).seekp 0).write
        (headerText w.counts_)).content
        = headerText w.counts_
          ++ List.replicate (R.toNat - (headerText w.counts_).length) '\n'
          ++ body ++ "\\end\\\n".toList := by
      simp only [OStream.seekp, OStream.write, List.take_zero, List.nil_append, Nat.zero_add]
      have := hbefore
      simp only [OStream.write] at this
      rw [this, hrep, List.append_assoc, List.append_assoc,
        List.drop_left' (List.length_replicate _ _)]
      simp
    refine ⟨⟨((w.file_.write "\\end\\\n".toList).seekp 0).write (headerText w.counts_),
      w.fast_counter_, w.counts_⟩, ?_, hafter, ?_, ?_, rfl, rfl⟩
    · rw [OutputLM.Finish, WriteCounts_eq _ _ hlen]
      rfl
    · have d1 : (List.replicate R.toNat '\n' ++ body ++ "\\end\\\n".toList).drop R.toNat
          = body ++ "\\end\\\n".toList := by
        rw [List.append_assoc]
        exact List.drop_left' (List.length_replicate _ _)
      have d2 : (headerText w.counts_
          ++ List.replicate (R.toNat - (headerText w.counts_).length) '\n'
          ++ body ++ "\\end\\\n".toList).drop R.toNat = body ++ "\\end\\\n".toList := by
        rw [List.append_assoc]
        exact List.drop_left'
          (by simp only [List.length_append, List.length_replicate]; omega)
      rw [hafter, hbefore, d1, d2]
    · simp only [hafter, hbefore, List.length_append, List.length_replicate]
      omega

/-- Witness for C9: a reservation of 30 bytes, an empty unigram section as
body, and the ledger `[0]`, whose header has 19 bytes. -/
theorem C9_header_patch_witness :
    ((OutputLM.create 0).ReserveForCounts 30).file_
      = ⟨List.replicate (30 : Int).toNat '\n', (30 : Int).toNat⟩ ∧
    ∃ w', OutputLM.Finish ⟨⟨List.replicate (30 : Int).toNat '\n' ++ "\\1-grams:\n\n".toList,
        (30 : Int).toNat + "\\1-grams:\n\n".toList.length⟩, 0, [0]⟩ = some w' ∧
      w'.file_.content
        = "\n\\data\\\nngram 1=0\n\n".toList
          ++ List.replicate ((30 : Int).toNat - "\n\\data\\\nngram 1=0\n\n".toList.length) '\n'
          ++ "\\1-grams:\n\n".toList ++ "\\end\\\n".toList ∧
      w'.file_.content.drop (30 : Int).toNat
        = (OStream.write ⟨List.replicate (30 : Int).toNat '\n' ++ "\\1-grams:\n\n".toList,
            (30 : Int).toNat + "\\1-grams:\n\n".toList.length⟩
            "\\end\\\n".toList).content.drop (30 : Int).toNat ∧
      w'.file_.content.length
        = (OStream.write ⟨List.replicate (30 : Int).toNat '\n' ++ "\\1-grams:\n\n".toList,
            (30 : Int).toNat + "\\1-grams:\n\n".toList.length⟩
            "\\end\\\n".toList).content.length ∧
      w'.counts_ = [0] ∧ w'.fast_counter_ = 0 :=
  C9_header_patch 0 30 "\\1-grams:\n\n".toList
    ⟨⟨List.replicate (30 : Int).toNat '\n' ++ "\\1-grams:\n\n".toList,
      (30 : Int).toNat + "\\1-grams:\n\n".toList.length⟩, 0, [0]⟩
    ⟨"\n\\data\\\nngram 1=0\n\n".toList, 19⟩ rfl (by decide) (by decide)

/-- C10, as stated, fails: the placeholder `[0]` and the real ledger `[10]` have
the same number of entries, the placeholder reserves 19 bytes, and the real
header has 20. -/
theorem C10_same_shape_is_not_enough :
    SizeNeededForCounts [0] = some 19 ∧
    (WriteCounts OStream.empty [10]).map (fun out => out.content.length) = some 20 ∧
    [0].length = [10].length := by
  decide

/-- C10, amended: for every placeholder ledger `p` with fewer than `2^32`
entries and every real ledger `r` with the same number of entries, each entry of
which has at most as many decimal digits as the entry of `p` at the same
index, `WriteCounts r` and `SizeNeededForCounts p` return and the byte length
of `WriteCounts r` is at most `SizeNeededForCounts p`. -/
theorem C10_same_digit_widths (p r : List Nat) (hsmall : p.length < 4294967296)
    (hdigits : List.Forall₂ (fun a b => (decimal a).length ≤ (decimal b).length) r p) :
    ∃ out n, WriteCounts OStream.empty r = some out ∧ SizeNeededForCounts p = some n ∧
      out.content.length ≤ n := by
  have hlen : r.length = p.length := hdigits.length_eq
  refine ⟨OStream.empty.write (headerText r), (headerText p).length,
    WriteCounts_eq _ _ (by omega), SizeNeededForCounts_eq p hsmall, ?_⟩
  have := countLines_length_le hdigits 1
  simp only [OStream.write, OStream.empty, List.take_nil, List.nil_append, List.drop_nil,
    List.append_nil, headerText_length]
  omega

/-- Witness for C10, amended: placeholder `[99, 7]`, real ledger `[10, 0]`. -/
theorem C10_same_digit_widths_witness :
    ∃ out n, WriteCounts OStream.empty [10, 0] = some out ∧
      SizeNeededForCounts [99, 7] = some n ∧ out.content.length ≤ n :=
  C10_same_digit_widths [99, 7] [10, 0] (by decide)
    (List.Forall₂.cons (by decide) (List.Forall₂.cons (by decide) List.Forall₂.nil))

/-! ## Claims about reservation sizing and the read range -/

/-- C11: for every two ledgers `p` and `r` with the same number of entries and
`r[i] <= p[i]` at every index, whenever `SizeNeededForCounts` returns for one of
them it returns for the other too and `SizeNeededForCounts r <=
SizeNeededForCounts p`; it returns for both when they have fewer than `2^32`
entries.  This includes the digit-length boundaries: for every `d`, the ledger
`[10^d - 1]` needs at most as many bytes as `[10^d]`. -/
theorem C11_sizing_monotone (p r : List Nat)
    (hle : List.Forall₂ (fun a b => a ≤ b) r p) :
    (∀ a, SizeNeededForCounts r = some a →
      ∃ b, SizeNeededForCounts p = some b ∧ a ≤ b) ∧
    (∀ b, SizeNeededForCounts p = some b →
      ∃ a, SizeNeededForCounts r = some a ∧ a ≤ b) ∧
    (p.length < 4294967296 →
      ∃ a b, SizeNeededForCounts r = some a ∧ SizeNeededForCounts p = some b ∧ a ≤ b) ∧
    (∀ d : Nat, ∃ a b, SizeNeededForCounts [10 ^ d - 1] = some a ∧
      SizeNeededForCounts [10 ^ d] = some b ∧ a ≤ b) := by
  have hlen : r.length = p.length := hle.length_eq
  have key : ∀ {r p : List Nat}, List.Forall₂ (fun a b => a ≤ b) r p →
      p.length < 4294967296 →
      ∃ a b, SizeNeededForCounts r = some a ∧ SizeNeededForCounts p = some b ∧ a ≤ b := by
    intro r p h hp
    have hl : r.length = p.length := h.length_eq
    refine ⟨_, _, SizeNeededForCounts_eq r (by omega), SizeNeededForCounts_eq p hp, ?_⟩
    have := countLines_length_mono h 1
    rw [headerText_length, headerText_length]
    omega
  refine ⟨?_, ?_, key hle, ?_⟩
  · intro a ha
    obtain ⟨hr, _⟩ := SizeNeededForCounts_some ha
    obtain ⟨a', b, h1, h2, h3⟩ := key hle (by omega)
    rw [ha] at h1
    simp only [Option.some.injEq] at h1
    exact ⟨b, h2, by omega⟩
  · intro b hb
    obtain ⟨hp, _⟩ := SizeNeededForCounts_some hb
    obtain ⟨a, b', h1, h2, h3⟩ := key hle hp
    rw [hb] at h2
    simp only [Option.some.injEq] at h2
    exact ⟨a, h1, by omega⟩
  · intro d
    exact key (List.Forall₂.cons (Nat.sub_le _ _) List.Forall₂.nil) (by simp)

/-- Witness for C11 at the boundary: placeholder `[1000, 10]`, real ledger
`[999, 9]`. -/
theorem C11_sizing_monotone_witness :
    (∀ a, SizeNeededForCounts [999, 9] = some a →
      ∃ b, SizeNeededForCounts [1000, 10] = some b ∧ a ≤ b) ∧
    (∀ b, SizeNeededForCounts [1000, 10] = some b →
      ∃ a, SizeNeededForCounts [999, 9] = some a ∧ a ≤ b) ∧
    ([1000, 10].length < 4294967296 →
      ∃ a b, SizeNeededForCounts [999, 9] = some a ∧
        SizeNeededForCounts [1000, 10] = some b ∧ a ≤ b) ∧
    (∀ d : Nat, ∃ a b, SizeNeededForCounts [10 ^ d - 1] = some a ∧
      SizeNeededForCounts [10 ^ d] = some b ∧ a ≤ b) :=
  C11_sizing_monotone [1000, 10] [999, 9]
    (List.Forall₂.cons (by decide) (List.Forall₂.cons (by decide) List.Forall₂.nil))

/-! ## Claims about the calls a writer accepts -/

/-- C12, as stated, fails: no call is rejected.  `Finish` on a freshly created
writer returns, leaving the header of the empty ledger in the sink;
`EndLength(1)` with no `BeginLength` before it, `BeginLength(1)` before any
`ReserveForCounts`, and `BeginLength(1)` after `Finish` return as well. -/
theorem C12_out_of_order_calls_return :
    (OutputLM.create 0).run [.Finish] = some ⟨⟨"\n\\data\\\n\n".toList, 9⟩, 0, []⟩ ∧
    (OutputLM.create 0).run [.EndLength 1] = some ⟨⟨"\n".toList, 1⟩, 0, [0]⟩ ∧
    (OutputLM.create 0).run [.BeginLength 1] = some ⟨⟨"\\1-grams:\n".toList, 10⟩, 0, []⟩ ∧
    (OutputLM.create 0).run [.ReserveForCounts 0, .Finish, .BeginLength 1]
      = some ⟨⟨"\n\\data\\\n\n\\1-grams:\n".toList, 19⟩, 0, []⟩ := by
  decide

/-- C12, amended: the writer checks no state.  Every sequence of calls to
`ReserveForCounts`, `BeginLength`, `EndLength` (with a length of at least 1) and
`Finish` on one freshly created `OutputLM`, in whatever order, runs to its end:
each call returns and none fails with a state-violation error. -/
theorem C12_no_state_check (uninitialised : Nat) (calls : List Call)
    (hk : ∀ k, Call.EndLength k ∈ calls → 1 ≤ k ∧ k < 4294967296) :
    ∃ w, (OutputLM.create uninitialised).run calls = some w := by
  obtain ⟨w, hw, _⟩ := run_some calls (OutputLM.create uninitialised)
    (by simp [OutputLM.create]) hk
  exact ⟨w, hw⟩

/-- Witness for C12, amended: `EndLength`, `Finish`, `BeginLength`,
`ReserveForCounts`, `Finish`, in this order. -/
theorem C12_no_state_check_witness :
    ∃ w, (OutputLM.create 0).run
      [.EndLength 2, .Finish, .BeginLength 1, .ReserveForCounts 3, .Finish] = some w :=
  C12_no_state_check 0 [.EndLength 2, .Finish, .BeginLength 1, .ReserveForCounts 3, .Finish]
    (by
      intro k hm
      simp only [List.mem_cons, Call.EndLength.injEq, List.mem_singleton, reduceCtorEq,
        or_false, List.not_mem_nil] at hm
      omega)

set_option maxRecDepth 8000 in
/-- C13, as stated, fails: the reservation is sized by the ledger `[0, 0]` of
two lengths (29 bytes), one length is written, and `Finish` returns, having
written the header of the one-length ledger `[0]`. -/
theorem C13_finish_accepts_other_shape :
    SizeNeededForCounts [0, 0] = some 29 ∧
    (OutputLM.create 0).run [.ReserveForCounts 29, .BeginLength 1, .EndLength 1, .Finish]
      = some ⟨⟨"\n\\data\\\nngram 1=0\n\n\n\n\n\n\n\n\n\n\n\n\\1-grams:\n\n\\end\\\n".toList,
          19⟩, 0, [0]⟩ ∧
    [0, 0].length ≠ [0].length := by
  decide

/-- C13, amended: `Finish` makes no shape check.  Whenever the number of
lengths of the placeholder ledger that sized the reservation differs from the
number of lengths actually written, the size of `counts_` (fewer than `2^32`)
when `Finish` is called, `Finish` still returns, and it has written the header
of `counts_` over the start of the sink: the sink is that header followed by
what the sink held before, the line `\end\` included, from the offset of the
header length onward. -/
theorem C13_no_shape_check (placeholder : List Nat) (n : Nat) (body : List Char)
    (w : OutputLM) (hsize : SizeNeededForCounts placeholder = some n)
    (hfile : w.file_ = ⟨List.replicate n '\n' ++ body, n + body.length⟩)
    (hlen : w.counts_.length < 4294967296)
    (_hshape : placeholder.length ≠ w.counts_.length) :
    ∃ w', w.Finish = some w' ∧
      w'.file_.content = headerText w.counts_
        ++ (List.replicate (headerText placeholder).length '\n' ++ body
          ++ "\\end\\\n".toList).drop (headerText w.counts_).length ∧
      w'.file_.pos = (headerText w.counts_).length ∧
      w'.counts_ = w.counts_ := by
  refine ⟨_, Finish_eq w hlen, ?_, rfl, rfl⟩
  have hn := (SizeNeededForCounts_some hsize).2
  simp only
  rw [OStream.write_at_end _ _ (by rw [hfile]; simp), hfile, hn]

/-- Witness for C13, amended: a reservation sized by `[0, 0]`, one length
written. -/
theorem C13_no_shape_check_witness :
    ∃ w', OutputLM.Finish ⟨⟨List.replicate 29 '\n' ++ "\\1-grams:\n\n".toList,
        29 + "\\1-grams:\n\n".toList.length⟩, 0, [0]⟩ = some w' ∧
      w'.file_.content = headerText [0]
        ++ (List.replicate (headerText [0, 0]).length '\n' ++ "\\1-grams:\n\n".toList
          ++ "\\end\\\n".toList).drop (headerText [0]).length ∧
      w'.file_.pos = (headerText [0]).length ∧
      w'.counts_ = [0] :=
  C13_no_shape_check [0, 0] 29 "\\1-grams:\n\n".toList
    ⟨⟨List.replicate 29 '\n' ++ "\\1-grams:\n\n".toList,
      29 + "\\1-grams:\n\n".toList.length⟩, 0, [0]⟩ (by decide) rfl (by decide) (by decide)

/-- C14: for every vocabulary input, the constructor of `SingleVocabFilter`
returns, and the set `words_` it built is exactly the set of the
whitespace-delimited tokens of the input: a word is a member if and only if it
occurs as a token, byte for byte; its size is the number of distinct tokens;
`backing_` holds each distinct token exactly once, in the order of first
occurrence.  For the input `a b a c` the set has size 3, contains `a`, `b` and
`c`, and does not contain `d` (nor `A`). -/
theorem C14_vocabulary_set (vocab : List Char) :
    (∃ f, SingleVocabFilter.create vocab = some f ∧
      f.words_ = (tokens vocab).toFinset ∧
      (∀ word, word ∈ f.words_ ↔ word ∈ tokens vocab) ∧
      f.words_.card = (tokens vocab).dedup.length ∧
      f.words_.card = f.backing_.length ∧
      f.backing_.Nodup ∧
      (∀ word, word ∈ f.backing_ ↔ word ∈ tokens vocab) ∧
      f.backing_ = (tokens vocab).eraseDups) ∧
    (SingleVocabFilter.create "a b a c".toList).map (fun f => f.words_.card) = some 3 ∧
    (SingleVocabFilter.create "a b a c".toList).map
        (fun f => decide ("a".toList ∈ f.words_ ∧ "b".toList ∈ f.words_ ∧
          "c".toList ∈ f.words_ ∧ "d".toList ∉ f.words_ ∧ "A".toList ∉ f.words_))
      = some true ∧
    (SingleVocabFilter.create "a b a c".toList).map (fun f => f.backing_)
      = some ["a".toList, "b".toList, "c".toList] := by
  refine ⟨?_, by decide, by decide, by decide⟩
  obtain ⟨h1, h2, h3, h4⟩ := addWord_fold_invariant (tokens vocab) ⟨∅, []⟩ rfl List.nodup_nil
  refine ⟨_, SingleVocabFilterLoop_eq _ vocab ⟨∅, []⟩ (Nat.lt_succ_self _), ?_, ?_, ?_, ?_,
    h2, ?_, ?_⟩
  · rw [h3]; simp
  · intro word
    rw [h3]; simp
  · rw [h3]
    simp [List.card_toFinset]
  · rw [h1, List.toFinset_card_of_nodup h2]
  · intro word
    have : word ∈ (List.foldl SingleVocabFilter.addWord ⟨∅, []⟩ (tokens vocab)).words_
        ↔ word ∈ tokens vocab := by
      rw [h3]; simp
    rw [← this, h1, List.mem_toFinset]
  · rw [h4]
    rfl

/-! ## Claims about the router and the vocabulary -/

/-- C15, as stated, fails: on a file system where no name under `missing_dir/`
can be opened, the constructor of `MultipleVocabMultipleOutputFilter` called
with the stem `missing_dir/out` and two destinations ends in the exception of
the first `open` and creates no writer; and where only `out1` cannot be opened,
the stem `out` with two destinations ends the same way, although `out0` was
opened: no router exists, so no writer at index 0 either. -/
theorem C15_unopenable_name_creates_no_writer :
    MultipleVocabMultipleOutputFilter.create
        (fun name => !(name.take 12 == "missing_dir/".toList)) ()
        2 "missing_dir/out".toList (fun _ => 0)
      = some (.error .ios_failure) ∧
    MultipleVocabMultipleOutputFilter.create (fun name => !(name == "out1".toList)) ()
        2 "out".toList (fun _ => 0)
      = some (.error .ios_failure) :=
  ⟨MultipleVocabMultipleOutputFilter_create_error _ () 2 "missing_dir/out".toList _
      (by decide) 0 (by decide) (by decide),
    MultipleVocabMultipleOutputFilter_create_error _ () 2 "out".toList _
      (by decide) 1 (by decide) (by decide)⟩

/-- C15, amended: for every name stem `pfx` (the argument `prefix`) and every
destination count `N` (an `unsigned int`), if each of the names
`pfx ++ decimal i`, `i < N`, can be opened, the constructor of
`MultipleVocabMultipleOutputFilter` returns and has created exactly `N` writers;
for every `i < N` the writer at index `i` was opened on the name
`pfx ++ decimal i`, with no padding and no separator, so the names appear in
increasing order of `i`; for `N = 0` no writer is created.  If one of these
names cannot be opened, the constructor ends in the exception of the failed
`open`, and no router and no writer exists. -/
theorem C15_destination_names {Map : Type} (canOpen : List Char → Bool) (vocabs : Map)
    (N : Nat) (pfx : List Char) (uninitialised : Nat → Nat) (hN : N < 4294967296) :
    ((∀ i, i < N → canOpen (pfx ++ decimal i) = true) →
      ∃ f, MultipleVocabMultipleOutputFilter.create canOpen vocabs N pfx uninitialised
          = some (.ok f) ∧
        f.vocabs_ = vocabs ∧
        f.files_.length = N ∧
        (∀ i, i < N →
          f.files_[i]? = some (pfx ++ decimal i, OutputLM.create (uninitialised i))) ∧
        f.files_.map Prod.fst = (List.range N).map (fun i => pfx ++ decimal i) ∧
        (N = 0 → f.files_ = [])) ∧
    (∀ i, i < N → canOpen (pfx ++ decimal i) = false →
      MultipleVocabMultipleOutputFilter.create canOpen vocabs N pfx uninitialised
        = some (.error .ios_failure)) ∧
    (∀ f, MultipleVocabMultipleOutputFilter.create canOpen vocabs N pfx uninitialised
        = some (.ok f) →
      (∀ i, i < N → canOpen (pfx ++ decimal i) = true) ∧
      f.files_.length = N ∧
      f.files_.map Prod.fst = (List.range N).map (fun i => pfx ++ decimal i)) := by
  refine ⟨?_, ?_, ?_⟩
  · intro hopen
    refine ⟨_, MultipleVocabMultipleOutputFilter_create_ok canOpen vocabs N pfx
      uninitialised hN hopen, rfl, by simp, ?_, by simp [Function.comp_def], ?_⟩
    · intro i hi
      simp [List.getElem?_map, List.getElem?_range hi]
    · intro h0
      subst h0
      rfl
  · intro i hi hclosed
    exact MultipleVocabMultipleOutputFilter_create_error canOpen vocabs N pfx uninitialised
      hN i hi hclosed
  · intro f hf
    obtain ⟨hopen, hfeq⟩ := MultipleVocabMultipleOutputFilter_create_ok_inv canOpen vocabs N
      pfx uninitialised hN f hf
    subst hfeq
    exact ⟨hopen, by simp, by simp [Function.comp_def]⟩

/-- Witness for C15, amended: three destinations on the stem `out`, once on a
file system that opens every name and once on one that refuses `out2`. -/
theorem C15_destination_names_witness :
    (∃ f, MultipleVocabMultipleOutputFilter.create (fun _ => true) () 3 "out".toList
          (fun _ => 0) = some (.ok f) ∧
        f.vocabs_ = () ∧
        f.files_.length = 3 ∧
        (∀ i, i < 3 →
          f.files_[i]? = some ("out".toList ++ decimal i, OutputLM.create 0)) ∧
        f.files_.map Prod.fst = (List.range 3).map (fun i => "out".toList ++ decimal i) ∧
        (3 = 0 → f.files_ = [])) ∧
    MultipleVocabMultipleOutputFilter.create (fun name => !(name == "out2".toList)) () 3
        "out".toList (fun _ => 0)
      = some (.error .ios_failure) :=
  ⟨(C15_destination_names (fun _ => true) () 3 "out".toList (fun _ => 0) (by decide)).1
      (fun _ _ => rfl),
    (C15_destination_names (fun name => !(name == "out2".toList)) () 3 "out".toList
      (fun _ => 0) (by decide)).2.1 2 (by decide) (by decide)⟩

/-- C16, as stated, fails: a run that writes one section of `2^32` records
(each the line `x`) after reserving the 28 bytes of its final header ends with
the header line `ngram 1=4294967296`, and `ReadCounts` on the bytes written
ends in the `bad_lexical_cast` exception, returning no ledger; the reader does
not get through the model. -/
theorem C16_section_of_2_pow_32_records_is_not_read_back :
    (headerText [4294967296]).length = 28 ∧
    (writeModel 0 28 [List.replicate 4294967296 ['x']]).map
        (fun w => ReadCounts w.file_.content)
      = some (some (.error .bad_lexical_cast)) ∧
    (writeModel 0 28 [List.replicate 4294967296 ['x']]).map
        (fun w => readModel w.file_.content)
      = some none := by
  obtain ⟨fc, h⟩ := writeModel_eq 0 28 [List.replicate 4294967296 ['x']] (by decide)
  have hmap : [List.replicate 4294967296 ['x']].map List.length = [4294967296] := by
    simp only [List.map_cons, List.map_nil, List.length_replicate]
  have hheader : headerText [4294967296]
      = "\n\\data\\\n".toList ++ ("ngram 1=4294967296".toList ++ '\n' :: ['\n']) := by
    decide
  have hread : ∀ tail : List Char, ReadCounts (headerText [4294967296] ++ tail)
      = some (.error .bad_lexical_cast) := by
    intro tail
    rw [hheader, List.append_assoc, ReadCounts_preamble, List.append_assoc]
    exact ReadCountsLoop_count_overflow _ _
  rw [hmap] at h
  refine ⟨by decide, ?_, ?_⟩
  · rw [h, Option.map_some']
    exact congrArg some (hread _)
  · rw [h, Option.map_some']
    exact congrArg some (readModel_of_ReadCounts_error (hread _))

set_option maxRecDepth 8000 in
/-- C16, amended: for every `n >= 1` below `2^32` and every choice of record
lists with fewer than `2^32` records each (each record a line without a
newline), if a fresh writer performs `ReserveForCounts(R)`, then for
`k = 1..n` in order `BeginLength(k)`, one `AddNGram` per record of length `k`,
`EndLength(k)`, and then `Finish`, with `R` at least the byte length of the
final header, then the run returns and leaves in the sink the header, the
`R - H` filler newlines, the sections and the line `\end\`; reading these bytes,
`ReadCounts` returns the ledger `[c_1, ..., c_n]` of the record counts and
stops before the filler; then for each `k = 1..n` `ReadNGramHeader(k)`
succeeds (skipping the filler before the first section) and is followed by
exactly the `c_k` records and an empty line; and finally `ReadEnd` succeeds at
the end of the input.  For two unigrams and one bigram the header lines are
`ngram 1=2` and `ngram 2=1`. -/
theorem C16_writer_output_is_readable (uninitialised : Nat) (R : Int)
    (sections : List (List (List Char)))
    (hn : 1 ≤ sections.length) (hn32 : sections.length < 4294967296)
    (hcount : ∀ s ∈ sections, s.length < 4294967296)
    (hrecord : ∀ s ∈ sections, ∀ r ∈ s, '\n' ∉ r)
    (hR : ((headerText (sections.map List.length)).length : Int) ≤ R) :
    (∃ w, writeModel uninitialised R sections = some w ∧
      w.counts_ = sections.map List.length ∧
      w.file_.content = headerText (sections.map List.length)
        ++ (List.replicate (R.toNat - (headerText (sections.map List.length)).length) '\n'
          ++ (bodyText 1 sections ++ "\\end\\\n".toList)) ∧
      ReadCounts w.file_.content = some (.ok (sections.map List.length,
        List.replicate (R.toNat - (headerText (sections.map List.length)).length) '\n'
          ++ (bodyText 1 sections ++ "\\end\\\n".toList))) ∧
      readSections 1 (sections.map List.length)
          (List.replicate (R.toNat - (headerText (sections.map List.length)).length) '\n'
            ++ (bodyText 1 sections ++ "\\end\\\n".toList))
        = some (sections, "\\end\\\n".toList) ∧
      ReadEnd "\\end\\\n".toList = .ok [] ∧
      readModel w.file_.content = some (sections.map List.length, sections, [])) ∧
    (writeModel 0 29 [["a".toList, "b".toList], ["a b".toList]]).map
        (fun w => w.file_.content)
      = some ("\n\\data\\\nngram 1=2\nngram 2=1\n\n".toList
          ++ "\\1-grams:\na\nb\n\n\\2-grams:\na b\n\n\\end\\\n".toList) := by
  refine ⟨?_, by decide⟩
  obtain ⟨fc, h⟩ := writeModel_eq uninitialised R sections hn32
  have hH : (headerText (sections.map List.length)).length ≤ R.toNat := by omega
  have hdrop : (List.replicate R.toNat '\n' ++ bodyText 1 sections
        ++ "\\end\\\n".toList).drop (headerText (sections.map List.length)).length
      = List.replicate (R.toNat - (headerText (sections.map List.length)).length) '\n'
        ++ (bodyText 1 sections ++ "\\end\\\n".toList) := by
    have hrep : List.replicate R.toNat '\n'
        = List.replicate (headerText (sections.map List.length)).length '\n'
          ++ List.replicate (R.toNat - (headerText (sections.map List.length)).length)
            '\n' := by
      rw [← List.replicate_add]
      congr 1
      omega
    rw [List.append_assoc]
    nth_rewrite 1 [hrep]
    rw [List.append_assoc]
    exact List.drop_left' (List.length_replicate _ _)
  rw [hdrop] at h
  have hcounts32 : ∀ c ∈ sections.map List.length, c < 4294967296 := by
    intro c hc
    obtain ⟨s, hs, rfl⟩ := List.mem_map.mp hc
    exact hcount s hs
  have hread := ReadCounts_headerText (sections.map List.length) (by simpa using hn32)
    hcounts32
    (List.replicate (R.toNat - (headerText (sections.map List.length)).length) '\n'
      ++ (bodyText 1 sections ++ "\\end\\\n".toList))
  have hsections := readSections_text sections 1
    (R.toNat - (headerText (sections.map List.length)).length) "\\end\\\n".toList hrecord
    (by
      intro hnil
      rw [hnil] at hn
      simp at hn)
  have hend : ReadEnd "\\end\\\n".toList = .ok [] := by decide
  refine ⟨_, h, rfl, rfl, hread, hsections, hend, ?_⟩
  simp only [readModel, hread, hsections, hend]

set_option maxRecDepth 8000 in
/-- Witness for C16, amended: two unigrams and one bigram, with a reservation
of 40 bytes. -/
theorem C16_writer_output_is_readable_witness :
    ∃ w, writeModel 0 40 [["a".toList, "b".toList], ["a b".toList]] = some w ∧
      readModel w.file_.content
        = some ([2, 1], [["a".toList, "b".toList], ["a b".toList]], []) := by
  obtain ⟨⟨w, h1, _, _, _, _, _, h7⟩, _⟩ :=
    C16_writer_output_is_readable 0 40 [["a".toList, "b".toList], ["a b".toList]]
      (by decide) (by decide) (by decide) (by decide) (by decide)
  exact ⟨w, h1, h7⟩

/-! ## Claims about the writer and the reader together -/

/-- C17: for every length `k`, `BeginLength(k)` writes to the sink exactly one
backslash, `decimal k`, the text `-grams:` and a newline byte, which it appends
when the put position is the end of the sink (on a fresh writer these bytes are
the whole sink), and sets the per-length counter to 0; and for every pair of
lengths `k` and `j`, `ReadNGramHeader(j)` applied to the bytes written by
`BeginLength(k)` succeeds if and only if `j = k`, and then leaves nothing
unread. -/
theorem C17_section_marker_round_trip (k j : Nat) :
    (∀ w : OutputLM, (w.BeginLength k).file_ = w.file_.write (sectionMarker k ++ ['\n']) ∧
      (w.BeginLength k).fast_counter_ = 0 ∧ (w.BeginLength k).counts_ = w.counts_) ∧
    (∀ w : OutputLM, w.file_.pos = w.file_.content.length →
      (w.BeginLength k).file_.content = w.file_.content ++ (sectionMarker k ++ ['\n'])) ∧
    (∀ uninitialised : Nat,
      ((OutputLM.create uninitialised).BeginLength k).file_.content
        = sectionMarker k ++ ['\n']) ∧
    sectionMarker k = '\\' :: (decimal k ++ "-grams:".toList) ∧
    ((∃ rest, ReadNGramHeader (sectionMarker k ++ ['\n']) j = some (.ok rest)) ↔ j = k) ∧
    (ReadNGramHeader (sectionMarker k ++ ['\n']) j = some (.ok []) ↔ j = k) := by
  have hread : ∀ rest, ReadNGramHeader (sectionMarker k ++ ['\n']) j = some (.ok rest)
      ↔ (k = j ∧ rest = []) := by
    intro rest
    rw [ReadNGramHeader_ok_iff, sectionMarker_dropWhile,
      getline_line (sectionMarker_no_newline k) []]
    simp only [Option.some.injEq, Prod.mk.injEq]
    constructor
    · rintro ⟨h1, h2⟩
      exact ⟨sectionMarker_injective h1, h2.symm⟩
    · rintro ⟨h1, h2⟩
      exact ⟨by rw [h1], h2.symm⟩
  refine ⟨fun w => ⟨BeginLength_file w k, rfl, rfl⟩, ?_, ?_, rfl, ?_, ?_⟩
  · intro w hpos
    rw [BeginLength_file, OStream.write_at_end _ _ hpos]
  · intro uninitialised
    rw [BeginLength_file, OStream.write_at_end _ _ rfl]
    rfl
  · constructor
    · rintro ⟨rest, h⟩
      exact ((hread rest).mp h).1.symm
    · intro h
      exact ⟨[], (hread []).mpr ⟨h.symm, rfl⟩⟩
  · constructor
    · intro h
      exact ((hread []).mp h).1.symm
    · intro h
      exact (hread []).mpr ⟨h.symm, rfl⟩

/-- Witness for C17: `BeginLength(3)` on a writer that holds two bytes, read
back with the length 3. -/
theorem C17_section_marker_round_trip_witness :
    (OutputLM.BeginLength ⟨⟨"ab".toList, 2⟩, 5, [4]⟩ 3).file_.content
      = "ab".toList ++ (sectionMarker 3 ++ ['\n']) ∧
    ReadNGramHeader (sectionMarker 3 ++ ['\n']) 3 = some (.ok []) :=
  ⟨(C17_section_marker_round_trip 3 3).2.1 ⟨⟨"ab".toList, 2⟩, 5, [4]⟩ rfl,
    (C17_section_marker_round_trip 3 3).2.2.2.2.2.mpr rfl⟩

/-- C18: for every ledger with fewer than `2^32` entries whose counts are all
below `2^32`, `WriteCounts` returns, and `ReadCounts` on the bytes it wrote
succeeds, returns the same ledger, and consumes every byte of the header: the
input is left at its end. -/
theorem C18_round_trip_consumes_header (number : List Nat)
    (hlen : number.length < 4294967296) (hcounts : ∀ c ∈ number, c < 4294967296) :
    ∃ out, WriteCounts OStream.empty number = some out ∧
      ReadCounts out.content = some (.ok (number, [])) := by
  refine ⟨OStream.empty.write (headerText number), WriteCounts_eq _ _ hlen, ?_⟩
  have hcontent : (OStream.empty.write (headerText number)).content = headerText number := by
    simp [OStream.write, OStream.empty]
  have := ReadCounts_headerText number hlen hcounts []
  rw [List.append_nil] at this
  rw [hcontent, this]

/-- Witness for C18 at the ledger `[4294967295, 0]`. -/
theorem C18_round_trip_consumes_header_witness :
    ∃ out, WriteCounts OStream.empty [4294967295, 0] = some out ∧
      ReadCounts out.content = some (.ok ([4294967295, 0], [])) :=
  C18_round_trip_consumes_header [4294967295, 0] (by decide) (by decide)

/-- C19: `Finish` does not guard against a header longer than the reserved
space.  In the run `ReserveForCounts(0)`, `BeginLength(1)`, `EndLength(1)`,
`Finish` the header has 19 bytes and the reservation none; before `Finish` the
sink holds the section marker line and an empty line, `Finish` returns without
an error, and afterwards the sink is the header alone: the header bytes have
overwritten the body from offset 0 on, and the section marker written by
`BeginLength` is no longer in the output.  In general, whenever `Finish` returns
the sink is the encoded header followed by the previous content, the line
`\end\` included, from the offset of the header length onward; and `Finish`
returns whenever the ledger has fewer than `2^32` entries. -/
theorem C19_finish_overwrites_body :
    (OutputLM.create 0).run [.ReserveForCounts 0, .BeginLength 1, .EndLength 1]
      = some ⟨⟨"\\1-grams:\n\n".toList, 11⟩, 0, [0]⟩ ∧
    SizeNeededForCounts [0] = some 19 ∧
    (OutputLM.create 0).run [.ReserveForCounts 0, .BeginLength 1, .EndLength 1, .Finish]
      = some ⟨⟨"\n\\data\\\nngram 1=0\n\n".toList, 19⟩, 0, [0]⟩ ∧
    ¬ (sectionMarker 1 <:+: "\n\\data\\\nngram 1=0\n\n".toList) ∧
    (∀ w w' : OutputLM, w.Finish = some w' →
      ∃ header, WriteCounts OStream.empty w.counts_ = some header ∧
        w'.file_.content = header.content
          ++ (w.file_.write "\\end\\\n".toList).content.drop header.content.length ∧
        w'.file_.pos = header.content.length) ∧
    (∀ w : OutputLM, w.counts_.length < 4294967296 → ∃ w', w.Finish = some w') := by
  refine ⟨by decide, by decide, by decide, by decide, ?_, ?_⟩
  · intro w w' h
    have hlen : w.counts_.length < 4294967296 := by
      by_contra hc
      rw [Finish_none w (by omega)] at h
      exact Option.noConfusion h
    rw [Finish_eq w hlen] at h
    simp only [Option.some.injEq] at h
    refine ⟨⟨headerText w.counts_, (headerText w.counts_).length⟩, ?_, ?_, ?_⟩
    · rw [WriteCounts_eq _ _ hlen]
      simp [OStream.write, OStream.empty]
    · rw [← h]
    · rw [← h]
  · intro w hlen
    exact ⟨_, Finish_eq w hlen⟩

/-- Witness for C19: the general statement at the writer state reached by
`ReserveForCounts(0)`, `BeginLength(1)`, `EndLength(1)`. -/
theorem C19_finish_overwrites_body_witness :
    ∃ header, WriteCounts OStream.empty [0] = some header ∧
      "\n\\data\\\nngram 1=0\n\n".toList = header.content
        ++ (OStream.write ⟨"\\1-grams:\n\n".toList, 11⟩ "\\end\\\n".toList).content.drop
          header.content.length ∧
      19 = header.content.length :=
  C19_finish_overwrites_body.2.2.2.2.1 ⟨⟨"\\1-grams:\n\n".toList, 11⟩, 0, [0]⟩
    ⟨⟨"\n\\data\\\nngram 1=0\n\n".toList, 19⟩, 0, [0]⟩ (by decide)

/-- C20: for every name stem `pfx` and every two indices `i != j` below the
destination count `N` (an `unsigned int`), the names `pfx ++ decimal i` and
`pfx ++ decimal j` built by the constructor of
`MultipleVocabMultipleOutputFilter` are different.  So whenever the constructor
returns a router, on whatever file system, the writers at the indices `i` and
`j` are opened on different names and the list of the names the router opened
has no repetition; it returns one whenever every name can be opened, and
otherwise it ends in the exception of a failed `open` with no writer at all. -/
theorem C20_names_never_collide {Map : Type} (canOpen : List Char → Bool) (vocabs : Map)
    (N : Nat) (pfx : List Char) (uninitialised : Nat → Nat) (hN : N < 4294967296) :
    (∀ i j, i < N → j < N → i ≠ j → pfx ++ decimal i ≠ pfx ++ decimal j) ∧
    (∀ f, MultipleVocabMultipleOutputFilter.create canOpen vocabs N pfx uninitialised
        = some (.ok f) →
      (f.files_.map Prod.fst).Nodup ∧
      (∀ i j, i < N → j < N → i ≠ j →
        ∃ a b, f.files_[i]? = some a ∧ f.files_[j]? = some b ∧ a.1 ≠ b.1)) ∧
    ((∀ i, i < N → canOpen (pfx ++ decimal i) = true) →
      ∃ f, MultipleVocabMultipleOutputFilter.create canOpen vocabs N pfx uninitialised
          = some (.ok f) ∧
        (f.files_.map Prod.fst).Nodup ∧
        (∀ i j, i < N → j < N → i ≠ j →
          pfx ++ decimal i ≠ pfx ++ decimal j ∧
          ∃ a b, f.files_[i]? = some a ∧ f.files_[j]? = some b ∧ a.1 ≠ b.1)) ∧
    ((∃ f, MultipleVocabMultipleOutputFilter.create canOpen vocabs N pfx uninitialised
        = some (.ok f)) ∨
      MultipleVocabMultipleOutputFilter.create canOpen vocabs N pfx uninitialised
        = some (.error .ios_failure)) := by
  have hname : ∀ i j, i < N → j < N → i ≠ j → pfx ++ decimal i ≠ pfx ++ decimal j :=
    fun i j _ _ hne h => hne (name_injective pfx h)
  have hclosed : ∀ f : MultipleVocabMultipleOutputFilter Map,
      f = ⟨vocabs, (List.range N).map
        (fun j => (pfx ++ decimal j, OutputLM.create (uninitialised j)))⟩ →
      (f.files_.map Prod.fst).Nodup ∧
      (∀ i j, i < N → j < N → i ≠ j →
        ∃ a b, f.files_[i]? = some a ∧ f.files_[j]? = some b ∧ a.1 ≠ b.1) := by
    intro f hf
    subst hf
    refine ⟨?_, ?_⟩
    · simp only [List.map_map]
      exact (List.nodup_range N).map (fun a b h => name_injective pfx h)
    · intro i j hi hj hne
      refine ⟨(pfx ++ decimal i, OutputLM.create (uninitialised i)),
        (pfx ++ decimal j, OutputLM.create (uninitialised j)), ?_, ?_, hname i j hi hj hne⟩
      · simp [List.getElem?_map, List.getElem?_range hi]
      · simp [List.getElem?_map, List.getElem?_range hj]
  refine ⟨hname, ?_, ?_, ?_⟩
  · intro f hf
    exact hclosed f (MultipleVocabMultipleOutputFilter_create_ok_inv canOpen vocabs N pfx
      uninitialised hN f hf).2
  · intro hopen
    obtain ⟨h1, h2⟩ := hclosed _ rfl
    exact ⟨_, MultipleVocabMultipleOutputFilter_create_ok canOpen vocabs N pfx
      uninitialised hN hopen, h1, fun i j hi hj hne => ⟨hname i j hi hj hne, h2 i j hi hj hne⟩⟩
  · rw [MultipleVocabMultipleOutputFilter_create_eq _ _ _ _ _ hN]
    split_ifs
    · exact Or.inl ⟨_, rfl⟩
    · exact Or.inr rfl

/-- Witness for C20: twelve destinations on the stem `out`, every name opens. -/
theorem C20_names_never_collide_witness :
    ∃ f, MultipleVocabMultipleOutputFilter.create (fun _ => true) () 12 "out".toList
        (fun _ => 0) = some (.ok f) ∧
      (f.files_.map Prod.fst).Nodup ∧
      (∀ i j, i < 12 → j < 12 → i ≠ j →
        "out".toList ++ decimal i ≠ "out".toList ++ decimal j ∧
        ∃ a b, f.files_[i]? = some a ∧ f.files_[j]? = some b ∧ a.1 ≠ b.1) :=
  (C20_names_never_collide (fun _ => true) () 12 "out".toList (fun _ => 0)
    (by decide)).2.2.1 (fun _ _ => rfl)

end lm
